import Mathlib

/-!
# Verification of the dicom-rs tokenization core and dictionary builder

Shallow embedding of:

* `src/parser/src/dataset/mod.rs` — the DICOM data-set token algebra and the
  structured-to-token encoder (`DataToken`, its `PartialEq`, the
  `From<DataElementHeader>` promotion, `DataElementTokens`, `FlattenTokens`,
  `ItemTokens`, `ItemValueTokens`).
* `src/dictionary-builder/src/main.rs` — the per-row filtering/formatting of
  `to_code_file`, the dispatch in `main`, and the `BTreeMap` construction of
  `to_json_file`.

Types of the external `dicom_core` crate (`Tag`, `VR`, `Length`,
`DataElementHeader`, `PrimitiveValue`, `Value`) are not part of the sources;
they are modelled from the specification where noted.
-/

set_option maxRecDepth 4000

namespace DicomRs

/-- Modelled from the spec: a DICOM tag is an ordered pair (group, element),
each a 16-bit unsigned integer; equality is componentwise
(`dicom_core::Tag`, external collaborator). -/
structure Tag where
  group : Nat
  element : Nat
deriving DecidableEq, Repr

/-- Modelled from the spec: VR is a closed enumeration of two-character codes.
Only a representative subset is listed; the tokenizer distinguishes `SQ`
(sequences) and `OB` (which together with the pixel-data tag and an undefined
length marks encapsulated pixel data) from all other codes. -/
inductive VR where
  | CS
  | OB
  | OW
  | PN
  | SH
  | SQ
  | UN
  | US
deriving DecidableEq, Repr

/-- Modelled from the spec: a `Length` is a 32-bit quantity with a sentinel
value (`0xFFFF_FFFF`, the DICOM undefined-length marker) denoting
"undefined length" (`dicom_core::header::Length`, external collaborator). -/
structure Length where
  bits : Nat
deriving DecidableEq, Repr

namespace Length

/-- The sentinel bit pattern for an undefined length. -/
def UNDEFINED : Length := ⟨0xFFFFFFFF⟩

/-- Modelled from the spec: whether this length is the undefined-length
sentinel. -/
def is_undefined (l : Length) : Bool := l.bits = 0xFFFFFFFF

/-- Modelled from the spec: length comparison that treats any two undefined
lengths as equal regardless of the bit pattern used to represent them, and
compares defined lengths numerically. -/
def inner_eq (l1 l2 : Length) : Bool :=
  (l1.is_undefined && l2.is_undefined) || l1.bits = l2.bits

end Length

/-- Modelled from the spec: `DataElementHeader` is the triple
`{ tag, vr, length }` (`dicom_core::header::DataElementHeader`). -/
structure DataElementHeader where
  tag : Tag
  vr : VR
  len : Length
deriving DecidableEq, Repr

/-- Modelled from the spec: an opaque primitive value type supporting
equality (`dicom_core::value::PrimitiveValue`). -/
structure PrimitiveValue where
  data : String
deriving DecidableEq, Repr

/-- A token of a DICOM data set stream (enum `DataToken`,
src/parser/src/dataset/mod.rs lines 16-38). Byte buffers (`Vec<u8>`) are
lists of byte values. -/
inductive DataToken where
  | elementHeader (header : DataElementHeader)
  | sequenceStart (tag : Tag) (len : Length)
  | pixelSequenceStart
  | sequenceEnd
  | itemStart (len : Length)
  | itemEnd
  | primitiveValue (value : PrimitiveValue)
  | itemValue (value : List Nat)
deriving DecidableEq, Repr

/-- The `PartialEq` implementation for `DataToken` (lines 49-85): headers and
sequence starts compare tags/VRs structurally and lengths via `inner_eq`;
item starts compare lengths via `inner_eq`; primitive values and item values
compare by value; nullary variants compare equal to their own kind only. -/
def dtEq : DataToken → DataToken → Bool
  | .elementHeader ⟨tag1, vr1, len1⟩, .elementHeader ⟨tag2, vr2, len2⟩ =>
    tag1 = tag2 && vr1 = vr2 && len1.inner_eq len2
  | .sequenceStart tag1 len1, .sequenceStart tag2 len2 =>
    tag1 = tag2 && len1.inner_eq len2
  | .itemStart len1, .itemStart len2 => len1.inner_eq len2
  | .primitiveValue v1, .primitiveValue v2 => v1 = v2
  | .itemValue v1, .itemValue v2 => v1 = v2
  | .itemEnd, .itemEnd => true
  | .sequenceEnd, .sequenceEnd => true
  | .pixelSequenceStart, .pixelSequenceStart => true
  | _, _ => false

/-- The tag of the encapsulated pixel-data element, `Tag(0x7fe0, 0x0010)`. -/
def pixelDataTag : Tag := ⟨0x7fe0, 0x0010⟩

/-- The `From<DataElementHeader> for DataToken` promotion (lines 87-100):
`(VR::OB, Tag(0x7fe0, 0x0010))` guarded by `header.len.is_undefined()` gives
`PixelSequenceStart`; `(VR::SQ, _)` gives `SequenceStart`; anything else
gives `ElementHeader`. -/
def tokenFromHeader (header : DataElementHeader) : DataToken :=
  if header.vr = VR.OB ∧ header.tag = pixelDataTag ∧ header.len.is_undefined then
    .pixelSequenceStart
  else if header.vr = VR.SQ then
    .sequenceStart header.tag header.len
  else
    .elementHeader header

/-- The first promotion rule's input class: encapsulated pixel data. -/
def isPixelHeader (h : DataElementHeader) : Prop :=
  h.vr = VR.OB ∧ h.tag = pixelDataTag ∧ h.len.is_undefined = true

instance (h : DataElementHeader) : Decidable (isPixelHeader h) := by
  unfold isPixelHeader; infer_instance

/-- C2: for every `(vr, tag, length)` triple the header-to-token promotion is
total and matches exactly one of three rules: VR=OB with the pixel-data tag
and undefined length yields `PixelSequenceStart`; otherwise VR=SQ yields
`SequenceStart { tag, length }`; otherwise it yields `ElementHeader(header)`. -/
theorem header_promotion_total_three_rules (h : DataElementHeader) :
    (tokenFromHeader h = .pixelSequenceStart ↔ isPixelHeader h)
    ∧ (tokenFromHeader h = .sequenceStart h.tag h.len ↔
        (¬ isPixelHeader h ∧ h.vr = VR.SQ))
    ∧ (tokenFromHeader h = .elementHeader h ↔
        (¬ isPixelHeader h ∧ h.vr ≠ VR.SQ)) := by
  unfold tokenFromHeader isPixelHeader
  split
  · rename_i hp
    refine ⟨⟨fun _ => hp, fun _ => rfl⟩, ?_, ?_⟩
    · exact ⟨(fun hcontra => by cases hcontra), fun ⟨hn, _⟩ => absurd hp hn⟩
    · exact ⟨(fun hcontra => by cases hcontra), fun ⟨hn, _⟩ => absurd hp hn⟩
  · rename_i hnp
    split
    · rename_i hsq
      refine ⟨⟨(fun hcontra => by cases hcontra), fun hp => absurd hp hnp⟩, ?_, ?_⟩
      · exact ⟨fun _ => ⟨hnp, hsq⟩, fun _ => rfl⟩
      · exact ⟨(fun hcontra => by cases hcontra), fun ⟨_, hns⟩ => absurd hsq hns⟩
    · rename_i hnsq
      refine ⟨⟨(fun hcontra => by cases hcontra), fun hp => absurd hp hnp⟩, ?_, ?_⟩
      · exact ⟨(fun hcontra => by cases hcontra), fun ⟨_, hs⟩ => absurd hs hnsq⟩
      · exact ⟨fun _ => ⟨hnp, hnsq⟩, fun _ => rfl⟩

/-! ## Structured values

`Value` is modelled from the spec (§3.1, `dicom_core::value::Value`): a
three-way variant. The generic nested-object parameter `I : IntoTokens` of
`DataElement<I, P>` is instantiated at nested data sets (ordered collections
of data elements, which obtain `IntoTokens` through the collection lifting of
lines 344-371), and the fragment parameter `P : AsRef<[u8]>` at byte
vectors. -/

mutual

/-- Modelled from the spec: `Value` — `Primitive`, `Sequence { items, size }`
or `PixelSequence { offset_table, fragments }`. -/
inductive Value where
  | primitive (value : PrimitiveValue) : Value
  | sequence (items : List DicomObject) (size : Length) : Value
  | pixelSequence (offsetTable : List Nat) (fragments : List (List Nat)) : Value

/-- A nested data set: an ordered collection of data elements (the
instantiation of the generic object parameter `I`). -/
inductive DicomObject where
  | mk (elems : List DataElement) : DicomObject

/-- `DataElement`: a header together with a value. -/
inductive DataElement where
  | mk (header : DataElementHeader) (value : Value) : DataElement

end

/-! ## Iterator state machines

Each Rust token iterator is embedded as a state type plus a step function
`next : state → Option (token × state)`; a fuel-indexed runner extracts the
emitted token list. Inner generic iterators (`I::Iter`, `K`, `T`) appear in
the states abstracted as their lists of remaining tokens, which is the only
interface (`next()`) the source uses them through. -/

/-- Runs a step function for at most `fuel` steps, collecting the emitted
tokens. -/
def runFuel {σ : Type u} (next : σ → Option (DataToken × σ)) :
    Nat → σ → List DataToken
  | 0, _ => []
  | fuel + 1, s =>
    match next s with
    | none => []
    | some (t, s') => t :: runFuel next fuel s'

/-- States of `ItemValueTokens` (lines 469-485). The `Option` inside the Rust
`Start` state is a borrow-checker artifact (`take().unwrap()` always succeeds
because states are only built with `Some`) and is dropped here. -/
inductive ItemValueTokensState where
  | start (value : List Nat)
  | value (v : List Nat)
  | done
  | ended
deriving DecidableEq, Repr

/-- The `Iterator` implementation for `ItemValueTokens` (lines 487-519).
`Length(value.as_ref().len() as u32)` truncates the buffer length to 32 bits,
and the `len == Length(0)` check compares the truncated value. -/
def itemValueNext : ItemValueTokensState → Option (DataToken × ItemValueTokensState)
  | .start v =>
    let len : Length := ⟨v.length % 2 ^ 32⟩
    some (.itemStart len, if len = (⟨0⟩ : Length) then .done else .value v)
  | .value v => some (.itemValue v, .done)
  | .done => some (.itemEnd, .ended)
  | .ended => none

/-- The complete token list emitted by `ItemValueTokens` for a byte buffer:
`ItemStart` with the truncated length, the `ItemValue` unless the truncated
length is zero, then `ItemEnd` (the closed form of the machine above). -/
def itemValueTokenList (v : List Nat) : List DataToken :=
  .itemStart ⟨v.length % 2 ^ 32⟩ ::
    (if v.length % 2 ^ 32 = 0 then [] else [.itemValue v]) ++ [.itemEnd]

/-- Unfolding a single step of the fuel runner. -/
theorem runFuel_step {σ : Type u} (next : σ → Option (DataToken × σ))
    (fuel : Nat) (s : σ) :
    runFuel next (fuel + 1) s =
      match next s with
      | none => []
      | some (t, s') => t :: runFuel next fuel s' := rfl

/-- A state with no successor emits nothing, whatever the fuel. -/
theorem runFuel_of_none {σ : Type u} (next : σ → Option (DataToken × σ))
    (s : σ) (h : next s = none) : ∀ fuel, runFuel next fuel s = []
  | 0 => rfl
  | fuel + 1 => by rw [runFuel_step, h]

/-- The `ItemValueTokens` machine emits exactly `itemValueTokenList`. -/
theorem itemValueNext_run (v : List Nat) (k : Nat) :
    runFuel itemValueNext (k + 3) (.start v) = itemValueTokenList v := by
  have hend : ∀ n, runFuel itemValueNext n .ended = [] :=
    runFuel_of_none itemValueNext _ rfl
  by_cases h : v.length % 4294967296 = 0
  · simp [runFuel, itemValueNext, itemValueTokenList, h, hend]
  · simp [runFuel, itemValueNext, itemValueTokenList, h, hend, Length.mk.injEq]

/-- States of `ItemTokens` (lines 373-401), the inner object token iterator
`T` abstracted as its remaining tokens; the `Option` in `Start` is again a
borrow-checker artifact. -/
inductive ItemTokensState where
  | start (len : Length) (objectTokens : List DataToken)
  | object (objectTokens : List DataToken)
  | ended
deriving DecidableEq, Repr

/-- The `Iterator` implementation for `ItemTokens` (lines 403-432). -/
def itemNext : ItemTokensState → Option (DataToken × ItemTokensState)
  | .start len ot => some (.itemStart len, .object ot)
  | .object (t :: rest) => some (t, .object rest)
  | .object [] => some (.itemEnd, .ended)
  | .ended => none

/-- The complete token list emitted by `ItemTokens`: `ItemStart{len}`, the
object tokens in order, then `ItemEnd`. -/
def itemTokenList (len : Length) (objectTokens : List DataToken) :
    List DataToken :=
  .itemStart len :: objectTokens ++ [.itemEnd]

/-- The `ItemTokens` machine emits exactly `itemTokenList`. -/
theorem itemNext_run (len : Length) (ot : List DataToken) (k : Nat) :
    runFuel itemNext (ot.length + k + 2) (.start len ot) =
      itemTokenList len ot := by
  have hend : ∀ n, runFuel itemNext n .ended = [] :=
    runFuel_of_none itemNext _ rfl
  suffices hobj : ∀ (l : List DataToken) (k : Nat),
      runFuel itemNext (l.length + k + 1) (.object l) = l ++ [.itemEnd] by
    rw [show ot.length + k + 2 = (ot.length + k + 1) + 1 from by omega,
      runFuel_step]
    show DataToken.itemStart len ::
      runFuel itemNext (ot.length + k + 1) (.object ot) = _
    rw [hobj ot k]
    rfl
  intro l
  induction l with
  | nil =>
    intro k
    rw [show [].length + k + 1 = k + 1 from by simp, runFuel_step]
    show DataToken.itemEnd :: runFuel itemNext k .ended = _
    rw [hend k]
    rfl
  | cons t rest ih =>
    intro k
    rw [show (t :: rest).length + k + 1 = (rest.length + k + 1) + 1 from by
      simp; omega, runFuel_step]
    show t :: runFuel itemNext (rest.length + k + 1) (.object rest) = _
    rw [ih k]
    rfl

/-- State of `FlattenTokens` (lines 305-311): the remaining sources and at
most one active sub-iterator, abstracted as its remaining tokens. -/
structure FlattenTokens (σ : Type u) where
  seq : List σ
  tokens : Option (List DataToken)
deriving DecidableEq, Repr

/-- The `Iterator` implementation for `FlattenTokens` (lines 313-342), with
`into_tokens` of a source given by `f`: when no sub-iterator is active, fetch
the next source (or end); when the active sub-iterator is drained, drop it
and recurse; otherwise emit its next token. -/
def flattenNext {σ : Type u} (f : σ → List DataToken) :
    FlattenTokens σ → Option (DataToken × FlattenTokens σ)
  | ⟨[], none⟩ => none
  | ⟨e :: rest, none⟩ => flattenNext f ⟨rest, some (f e)⟩
  | ⟨seq, some (t :: ts)⟩ => some (t, ⟨seq, some ts⟩)
  | ⟨seq, some []⟩ => flattenNext f ⟨seq, none⟩
termination_by s => s.seq.length * 2 + (match s.tokens with | none => 0 | some _ => 1)
decreasing_by
  · simp; omega
  · simp

/-- Fuel sufficient to drain a `FlattenTokens` run started at `⟨seq, none⟩`. -/
def flattenFuel {σ : Type u} (f : σ → List DataToken) (seq : List σ) : Nat :=
  ((seq.map f).flatten).length + seq.length + 1

/-- Two states with the same successor emit the same tokens. -/
theorem runFuel_congr_next {σ : Type u} (next : σ → Option (DataToken × σ))
    (s s' : σ) (h : next s = next s') :
    ∀ fuel, runFuel next fuel s = runFuel next fuel s'
  | 0 => rfl
  | fuel + 1 => by rw [runFuel_step, runFuel_step, h]

/-- While the active sub-iterator still has tokens, `FlattenTokens` emits them
one by one without touching the source sequence. -/
theorem flattenNext_emits {σ : Type u} (f : σ → List DataToken)
    (seq : List σ) (t : DataToken) (ts : List DataToken) :
    flattenNext f ⟨seq, some (t :: ts)⟩ = some (t, ⟨seq, some ts⟩) := by
  simp [flattenNext]

/-- Draining the active sub-iterator first: the pending tokens are emitted in
order before the machine returns to the fetch state. -/
theorem flatten_drain_tokens {σ : Type u} (f : σ → List DataToken)
    (ts : List DataToken) :
    ∀ (k : Nat) (seq : List σ),
      runFuel (flattenNext f) (ts.length + k) ⟨seq, some ts⟩ =
        ts ++ runFuel (flattenNext f) k ⟨seq, some []⟩ := by
  induction ts with
  | nil => intro k seq; simp
  | cons t rest ih =>
    intro k seq
    rw [show (t :: rest).length + k = (rest.length + k) + 1 from by
      simp; omega, runFuel_step, flattenNext_emits]
    show t :: runFuel (flattenNext f) (rest.length + k) ⟨seq, some rest⟩ =
      t :: rest ++ runFuel (flattenNext f) k ⟨seq, some []⟩
    rw [ih k seq, List.cons_append]

/-- An exhausted sub-iterator is dropped before fetching the next source. -/
theorem flatten_empty_toks {σ : Type u} (f : σ → List DataToken)
    (seq : List σ) (fuel : Nat) :
    runFuel (flattenNext f) fuel ⟨seq, some []⟩ =
      runFuel (flattenNext f) fuel ⟨seq, none⟩ :=
  runFuel_congr_next _ _ _ (by simp [flattenNext]) fuel

/-- With enough fuel, a `FlattenTokens` run from the initial state (the
`into_tokens` of the `Vec<T>` instance, lines 344-356) produces the
concatenation of the per-source token sequences in order. -/
theorem flatten_run {σ : Type u} (f : σ → List DataToken) :
    ∀ (seq : List σ) (k : Nat),
      runFuel (flattenNext f) (flattenFuel f seq + k) ⟨seq, none⟩ =
        (seq.map f).flatten := by
  intro seq
  induction seq with
  | nil =>
    intro k
    rw [runFuel_of_none (flattenNext f) _ (by simp [flattenNext])]
    simp
  | cons e rest ih =>
    intro k
    rw [runFuel_congr_next (flattenNext f) ⟨e :: rest, none⟩
      ⟨rest, some (f e)⟩ (by simp [flattenNext]) _]
    rw [show flattenFuel f (e :: rest) + k =
      (f e).length + (flattenFuel f rest + (k + 1)) from by
        simp [flattenFuel]; omega]
    rw [flatten_drain_tokens f (f e) _ rest, flatten_empty_toks, ih (k + 1)]
    simp

/-- C5: for every ordered collection of to-tokens-capable values, the
flattening combinator's output token sequence equals the concatenation, in
document order, of the token sequences of its elements; while the current
sub-iterator is not drained the next source is not fetched (its emission step
leaves the source sequence untouched), and the state holds at most one active
sub-iterator. -/
theorem flatten_concat_in_document_order {σ : Type} (f : σ → List DataToken)
    (seq : List σ) (fuel : Nat) (h : flattenFuel f seq ≤ fuel) :
    runFuel (flattenNext f) fuel ⟨seq, none⟩ = (seq.map f).flatten
    ∧ ∀ (s : List σ) (t : DataToken) (ts : List DataToken),
        flattenNext f ⟨s, some (t :: ts)⟩ = some (t, ⟨s, some ts⟩) := by
  constructor
  · obtain ⟨k, rfl⟩ := Nat.exists_eq_add_of_le h
    exact flatten_run f seq k
  · exact flattenNext_emits f

/-- Witness for C5 at a concrete source collection. -/
theorem flatten_concat_in_document_order_witness :
    flattenFuel (fun n : Nat => [DataToken.itemValue [n]]) [5] ≤ 3
    ∧ runFuel (flattenNext (fun n : Nat => [DataToken.itemValue [n]])) 3
        ⟨[5], none⟩ = [DataToken.itemValue [5]] := by
  refine ⟨by decide, ?_⟩
  have := (flatten_concat_in_document_order
    (fun n : Nat => [DataToken.itemValue [n]]) [5] 3 (by decide)).1
  simpa using this

/-! ## The per-element tokenizer

`DataElementTokens` (lines 147-303) is a six-state machine; its complete
emission sequence per state path is:

* `Start → End` (primitive): `ElementHeader(header)` then `PrimitiveValue(v)`.
* `Start → Items → End` (sequence): `SequenceStart`, the flattened
  `ItemTokens` of every item wrapped `AsItem(Length::UNDEFINED, o)`
  (lines 210-215, 434-449), then `SequenceEnd` on exhaustion (line 260).
* `Start → PixelData → PixelDataFragments → End` (pixel sequence):
  `PixelSequenceStart`, the `ItemValueTokens` of the offset table, then the
  flattened `ItemValueTokens` of each fragment, then `SequenceEnd`
  (lines 219-236, 263-284).

`elementTokens` below is that emission sequence; `none` models the
`unreachable!` panics taken when the header and the value disagree
(lines 209, 234, 246). -/

mutual

/-- The full token sequence of `DataElementTokens` for one data element. -/
def elementTokens : DataElement → Option (List DataToken)
  | .mk header value =>
    match tokenFromHeader header, value with
    | .sequenceStart t l, .sequence items _ =>
      match itemListTokens items with
      | some ts => some (.sequenceStart t l :: ts ++ [.sequenceEnd])
      | none => none
    | .sequenceStart _ _, _ => none
    | .pixelSequenceStart, .pixelSequence offsetTable fragments =>
      some (.pixelSequenceStart :: itemValueTokenList offsetTable
        ++ (fragments.map itemValueTokenList).flatten ++ [.sequenceEnd])
    | .pixelSequenceStart, _ => none
    | _, .primitive v => some [.elementHeader header, .primitiveValue v]
    | _, _ => none

/-- Flattened tokens of a sequence's items, each wrapped
`AsItem(Length::UNDEFINED, o)` (line 213). -/
def itemListTokens : List DicomObject → Option (List DataToken)
  | [] => some []
  | o :: rest =>
    match objectTokens o, itemListTokens rest with
    | some ts, some rs => some (itemTokenList Length.UNDEFINED ts ++ rs)
    | _, _ => none

/-- Tokens of a nested data set: the flattened tokens of its elements
(collection lifting, lines 344-371). -/
def objectTokens : DicomObject → Option (List DataToken)
  | .mk elems => elemListTokens elems

/-- Flattened tokens of a list of data elements. -/
def elemListTokens : List DataElement → Option (List DataToken)
  | [] => some []
  | e :: rest =>
    match elementTokens e, elemListTokens rest with
    | some ts, some rs => some (ts ++ rs)
    | _, _ => none

end

/-! ## The `DataElementTokens` state machine itself

Beyond the compositional `elementTokens` above, the six-state machine of
`DataElementTokens` (lines 147-291) is embedded step by step and proven to
emit exactly the `elementTokens` sequence for well-formed elements. The
nested sub-iterators in its states (`ItemTokens` inside `FlattenTokens`,
`I::Iter`) are abstracted as their lists of remaining tokens, the only
interface the machine uses them through. -/

/-- The tokens still to be emitted by a flatten state. -/
def flattenRemaining {σ : Type u} (f : σ → List DataToken)
    (fl : FlattenTokens σ) : List DataToken :=
  (fl.tokens.getD []) ++ (fl.seq.map f).flatten

/-- Each `FlattenTokens` step either ends exactly when nothing remains, or
emits the head of the remaining tokens. -/
theorem flattenNext_char {σ : Type u} (f : σ → List DataToken) :
    ∀ (n : Nat) (seq : List σ) (tokens : Option (List DataToken)),
      seq.length ≤ n →
      (flattenNext f ⟨seq, tokens⟩ = none
        ∧ flattenRemaining f ⟨seq, tokens⟩ = [])
      ∨ ∃ t fl', flattenNext f ⟨seq, tokens⟩ = some (t, fl')
          ∧ flattenRemaining f ⟨seq, tokens⟩ = t :: flattenRemaining f fl' := by
  intro n
  induction n with
  | zero =>
    intro seq tokens hlen
    have hseq : seq = [] := List.length_eq_zero.mp (Nat.le_zero.mp hlen)
    subst hseq
    match tokens with
    | none => exact Or.inl ⟨by simp [flattenNext], by simp [flattenRemaining]⟩
    | some [] =>
      exact Or.inl ⟨by simp [flattenNext], by simp [flattenRemaining]⟩
    | some (t :: ts) =>
      exact Or.inr ⟨t, ⟨[], some ts⟩, by simp [flattenNext],
        by simp [flattenRemaining]⟩
  | succ n ih =>
    intro seq tokens hlen
    have hnone : (flattenNext f ⟨seq, none⟩ = none
          ∧ flattenRemaining f ⟨seq, none⟩ = [])
        ∨ ∃ t fl', flattenNext f ⟨seq, none⟩ = some (t, fl')
            ∧ flattenRemaining f ⟨seq, none⟩ = t :: flattenRemaining f fl' := by
      match seq with
      | [] => exact Or.inl ⟨by simp [flattenNext], by simp [flattenRemaining]⟩
      | e :: rest =>
        have heq : flattenNext f ⟨e :: rest, none⟩ =
            flattenNext f ⟨rest, some (f e)⟩ := by
          simp [flattenNext]
        have hrem : flattenRemaining f ⟨e :: rest, none⟩ =
            flattenRemaining f ⟨rest, some (f e)⟩ := by
          simp [flattenRemaining]
        rcases ih rest (some (f e)) (by simp at hlen ⊢; omega) with
          ⟨h1, h2⟩ | ⟨t, fl', h1, h2⟩
        · exact Or.inl ⟨heq.trans h1, hrem.trans h2⟩
        · exact Or.inr ⟨t, fl', heq.trans h1, hrem.trans h2⟩
    match tokens with
    | none => exact hnone
    | some [] =>
      have heq : flattenNext f ⟨seq, some []⟩ = flattenNext f ⟨seq, none⟩ := by
        simp [flattenNext]
      have hrem : flattenRemaining f ⟨seq, some []⟩ =
          flattenRemaining f ⟨seq, none⟩ := by
        simp [flattenRemaining]
      rcases hnone with ⟨h1, h2⟩ | ⟨t, fl', h1, h2⟩
      · exact Or.inl ⟨heq.trans h1, hrem.trans h2⟩
      · exact Or.inr ⟨t, fl', heq.trans h1, hrem.trans h2⟩
    | some (t :: ts) =>
      exact Or.inr ⟨t, ⟨seq, some ts⟩, by simp [flattenNext],
        by simp [flattenRemaining]⟩

/-- The tokens still to be emitted by an `ItemValueTokens` state. -/
def itemValueRemaining : ItemValueTokensState → List DataToken
  | .start v => itemValueTokenList v
  | .value v => [.itemValue v, .itemEnd]
  | .done => [.itemEnd]
  | .ended => []

/-- Each `ItemValueTokens` step either ends exactly when nothing remains, or
emits the head of the remaining tokens. -/
theorem itemValueNext_char (s : ItemValueTokensState) :
    (itemValueNext s = none ∧ itemValueRemaining s = [])
    ∨ ∃ t s', itemValueNext s = some (t, s')
        ∧ itemValueRemaining s = t :: itemValueRemaining s' := by
  match s with
  | .start v =>
    by_cases h : v.length % 4294967296 = 0
    · exact Or.inr ⟨.itemStart ⟨v.length % 2 ^ 32⟩, .done,
        by simp [itemValueNext, h, Length.mk.injEq],
        by simp [itemValueRemaining, itemValueTokenList, h]⟩
    · exact Or.inr ⟨.itemStart ⟨v.length % 2 ^ 32⟩, .value v,
        by simp [itemValueNext, h, Length.mk.injEq],
        by simp [itemValueRemaining, itemValueTokenList, h]⟩
  | .value v =>
    exact Or.inr ⟨.itemValue v, .done, rfl, rfl⟩
  | .done => exact Or.inr ⟨.itemEnd, .ended, rfl, rfl⟩
  | .ended => exact Or.inl ⟨rfl, rfl⟩

/-- States of `DataElementTokens` (lines 147-188). The `Option`s inside the
Rust `Start`, `Header` and `PixelData` states are borrow-checker artifacts
and are dropped; the item sources of the `Items` flatten (objects wrapped
`AsItem(Length::UNDEFINED, o)`) are abstracted as their emitted token lists,
and the fragment sources of `PixelDataFragments` as the raw fragments with
`itemValueTokenList` as their `into_tokens`. -/
inductive DataElementTokensState where
  | start (elem : DataElement)
  | headerState (elem : DataElement)
  | items (tokens : FlattenTokens (List DataToken))
  | pixelData (fragments : List (List Nat)) (tokens : ItemValueTokensState)
  | pixelDataFragments (tokens : FlattenTokens (List Nat))
  | endState

/-- The `Iterator` implementation for `DataElementTokens` (lines 190-291).
`none` stands both for the end of the stream (`End`) and for the
`unreachable!` panics on header-value disagreement (lines 209, 234, 246),
which cut the stream short. The `PixelData` transition on an exhausted
offset-table iterator makes the same recursive `next` call as line 274. -/
def detNext : DataElementTokensState → Option (DataToken × DataElementTokensState)
  | .start (.mk header value) =>
    match tokenFromHeader header, value with
    | .sequenceStart t l, .sequence items _ =>
      some (.sequenceStart t l, .items
        ⟨items.map (fun o =>
          itemTokenList Length.UNDEFINED ((objectTokens o).getD [])), none⟩)
    | .sequenceStart _ _, _ => none
    | .pixelSequenceStart, .pixelSequence offsetTable fragments =>
      some (.pixelSequenceStart, .pixelData fragments (.start offsetTable))
    | .pixelSequenceStart, _ => none
    | _, v => some (.elementHeader header, .headerState (.mk header v))
  | .headerState (.mk _ value) =>
    match value with
    | .primitive v => some (.primitiveValue v, .endState)
    | _ => none
  | .items fl =>
    match flattenNext id fl with
    | some (t, fl') => some (t, .items fl')
    | none => some (.sequenceEnd, .endState)
  | .pixelData fragments ivt =>
    match itemValueNext ivt with
    | some (t, ivt') => some (t, .pixelData fragments ivt')
    | none => detNext (.pixelDataFragments ⟨fragments, none⟩)
  | .pixelDataFragments fl =>
    match flattenNext itemValueTokenList fl with
    | some (t, fl') => some (t, .pixelDataFragments fl')
    | none => some (.sequenceEnd, .endState)
  | .endState => none
termination_by s =>
  match s with
  | .pixelData _ _ => 1
  | _ => 0
decreasing_by simp_wf

/-- The machine at `End` emits nothing. -/
theorem detNext_endState_eq : detNext .endState = none := by
  unfold detNext
  rfl

/-- From the `Items` state the machine emits the remaining flattened item
tokens and then a single `SequenceEnd`. -/
theorem det_items_run :
    ∀ (n : Nat) (fl : FlattenTokens (List DataToken)),
      (flattenRemaining id fl).length ≤ n → ∀ k,
      runFuel detNext (n + 2 + k) (.items fl) =
        flattenRemaining id fl ++ [.sequenceEnd] := by
  intro n
  induction n with
  | zero =>
    intro fl hlen k
    rcases flattenNext_char id fl.seq.length fl.seq fl.tokens le_rfl with
      ⟨h1, h2⟩ | ⟨t, fl', h1, h2⟩
    · rw [show (⟨fl.seq, fl.tokens⟩ : FlattenTokens _) = fl from rfl] at h1 h2
      rw [show (0 + 2 + k) = (k + 1) + 1 from by omega, runFuel_step]
      rw [show detNext (.items fl) = some (.sequenceEnd, .endState) from by
        unfold detNext; rw [h1]]
      show DataToken.sequenceEnd :: runFuel detNext (k + 1) .endState = _
      rw [runFuel_of_none detNext .endState detNext_endState_eq (k + 1), h2]
      rfl
    · rw [show (⟨fl.seq, fl.tokens⟩ : FlattenTokens _) = fl from rfl] at h1 h2
      rw [h2] at hlen
      simp at hlen
  | succ n ih =>
    intro fl hlen k
    rcases flattenNext_char id fl.seq.length fl.seq fl.tokens le_rfl with
      ⟨h1, h2⟩ | ⟨t, fl', h1, h2⟩
    · rw [show (⟨fl.seq, fl.tokens⟩ : FlattenTokens _) = fl from rfl] at h1 h2
      rw [show (n + 1 + 2 + k) = (n + 2 + k) + 1 from by omega,
        runFuel_step]
      rw [show detNext (.items fl) = some (.sequenceEnd, .endState) from by
        unfold detNext; rw [h1]]
      show DataToken.sequenceEnd :: runFuel detNext (n + 2 + k) .endState = _
      rw [runFuel_of_none detNext .endState detNext_endState_eq, h2]
      rfl
    · rw [show (⟨fl.seq, fl.tokens⟩ : FlattenTokens _) = fl from rfl] at h1 h2
      have hlen' : (flattenRemaining id fl').length ≤ n := by
        rw [h2] at hlen
        simp only [List.length_cons] at hlen
        omega
      rw [show (n + 1 + 2 + k) = (n + 2 + k) + 1 from by omega, runFuel_step]
      rw [show detNext (.items fl) = some (t, .items fl') from by
        unfold detNext; rw [h1]]
      show t :: runFuel detNext (n + 2 + k) (.items fl') = _
      rw [ih fl' hlen' k, h2]
      rfl

/-- From the `PixelDataFragments` state the machine emits the remaining
flattened fragment-item tokens and then a single `SequenceEnd`. -/
theorem det_fragments_run :
    ∀ (n : Nat) (fl : FlattenTokens (List Nat)),
      (flattenRemaining itemValueTokenList fl).length ≤ n → ∀ k,
      runFuel detNext (n + 2 + k) (.pixelDataFragments fl) =
        flattenRemaining itemValueTokenList fl ++ [.sequenceEnd] := by
  intro n
  induction n with
  | zero =>
    intro fl hlen k
    rcases flattenNext_char itemValueTokenList fl.seq.length fl.seq fl.tokens
      le_rfl with ⟨h1, h2⟩ | ⟨t, fl', h1, h2⟩
    · rw [show (⟨fl.seq, fl.tokens⟩ : FlattenTokens _) = fl from rfl] at h1 h2
      rw [show (0 + 2 + k) = (k + 1) + 1 from by omega, runFuel_step]
      rw [show detNext (.pixelDataFragments fl) =
          some (.sequenceEnd, .endState) from by
        unfold detNext; rw [h1]]
      show DataToken.sequenceEnd :: runFuel detNext (k + 1) .endState = _
      rw [runFuel_of_none detNext .endState detNext_endState_eq (k + 1), h2]
      rfl
    · rw [show (⟨fl.seq, fl.tokens⟩ : FlattenTokens _) = fl from rfl] at h1 h2
      rw [h2] at hlen
      simp at hlen
  | succ n ih =>
    intro fl hlen k
    rcases flattenNext_char itemValueTokenList fl.seq.length fl.seq fl.tokens
      le_rfl with ⟨h1, h2⟩ | ⟨t, fl', h1, h2⟩
    · rw [show (⟨fl.seq, fl.tokens⟩ : FlattenTokens _) = fl from rfl] at h1 h2
      rw [show (n + 1 + 2 + k) = (n + 2 + k) + 1 from by omega,
        runFuel_step]
      rw [show detNext (.pixelDataFragments fl) =
          some (.sequenceEnd, .endState) from by
        unfold detNext; rw [h1]]
      show DataToken.sequenceEnd ::
        runFuel detNext (n + 2 + k) .endState = _
      rw [runFuel_of_none detNext .endState detNext_endState_eq, h2]
      rfl
    · rw [show (⟨fl.seq, fl.tokens⟩ : FlattenTokens _) = fl from rfl] at h1 h2
      have hlen' : (flattenRemaining itemValueTokenList fl').length ≤ n := by
        rw [h2] at hlen
        simp only [List.length_cons] at hlen
        omega
      rw [show (n + 1 + 2 + k) = (n + 2 + k) + 1 from by omega, runFuel_step]
      rw [show detNext (.pixelDataFragments fl) =
          some (t, .pixelDataFragments fl') from by
        unfold detNext; rw [h1]]
      show t :: runFuel detNext (n + 2 + k) (.pixelDataFragments fl') = _
      rw [ih fl' hlen' k, h2]
      rfl

/-- From the `PixelData` state the machine drains the offset-table item
tokens, then the fragment items, then emits a single `SequenceEnd`. -/
theorem det_pixel_run :
    ∀ (n : Nat) (ivt : ItemValueTokensState) (fragments : List (List Nat)),
      (itemValueRemaining ivt).length ≤ n → ∀ k,
      runFuel detNext
        (n + ((fragments.map itemValueTokenList).flatten).length + 2 + k)
        (.pixelData fragments ivt) =
      itemValueRemaining ivt
        ++ (fragments.map itemValueTokenList).flatten ++ [.sequenceEnd] := by
  intro n
  induction n with
  | zero =>
    intro ivt fragments hlen k
    rcases itemValueNext_char ivt with ⟨h1, h2⟩ | ⟨t, ivt', h1, h2⟩
    · have hjump : detNext (.pixelData fragments ivt) =
          detNext (.pixelDataFragments ⟨fragments, none⟩) := by
        rw [detNext.eq_def]
        show (match itemValueNext ivt with
          | some (t, ivt') =>
            some (t, DataElementTokensState.pixelData fragments ivt')
          | none =>
            detNext (.pixelDataFragments ⟨fragments, none⟩)) =
          detNext (.pixelDataFragments ⟨fragments, none⟩)
        rw [h1]
      rw [runFuel_congr_next detNext _ _ hjump]
      rw [show (0 + ((fragments.map itemValueTokenList).flatten).length + 2
            + k) =
          ((fragments.map itemValueTokenList).flatten).length + 2 + k from by
        omega]
      rw [det_fragments_run
        ((fragments.map itemValueTokenList).flatten).length
        ⟨fragments, none⟩ (by simp [flattenRemaining]) k]
      rw [h2]
      simp [flattenRemaining]
    · rw [h2] at hlen
      simp at hlen
  | succ n ih =>
    intro ivt fragments hlen k
    rcases itemValueNext_char ivt with ⟨h1, h2⟩ | ⟨t, ivt', h1, h2⟩
    · have hjump : detNext (.pixelData fragments ivt) =
          detNext (.pixelDataFragments ⟨fragments, none⟩) := by
        rw [detNext.eq_def]
        show (match itemValueNext ivt with
          | some (t, ivt') =>
            some (t, DataElementTokensState.pixelData fragments ivt')
          | none =>
            detNext (.pixelDataFragments ⟨fragments, none⟩)) =
          detNext (.pixelDataFragments ⟨fragments, none⟩)
        rw [h1]
      rw [runFuel_congr_next detNext _ _ hjump]
      rw [show (n + 1 + ((fragments.map itemValueTokenList).flatten).length
            + 2 + k) =
          ((fragments.map itemValueTokenList).flatten).length + 2
            + (n + 1 + k) from by omega]
      rw [det_fragments_run
        ((fragments.map itemValueTokenList).flatten).length
        ⟨fragments, none⟩ (by simp [flattenRemaining]) (n + 1 + k)]
      rw [h2]
      simp [flattenRemaining]
    · have hlen' : (itemValueRemaining ivt').length ≤ n := by
        rw [h2] at hlen
        simp only [List.length_cons] at hlen
        omega
      rw [show (n + 1 + ((fragments.map itemValueTokenList).flatten).length
          + 2 + k) =
        (n + ((fragments.map itemValueTokenList).flatten).length + 2 + k) + 1
        from by omega, runFuel_step]
      rw [show detNext (.pixelData fragments ivt) =
          some (t, .pixelData fragments ivt') from by
        unfold detNext; rw [h1]]
      show t :: runFuel detNext
        (n + ((fragments.map itemValueTokenList).flatten).length + 2 + k)
        (.pixelData fragments ivt') = _
      rw [ih ivt' fragments hlen' k, h2]
      simp

/-! ## Header-value agreement and well-formed elements (spec §3.3) -/

/-- Header-value agreement: the value variant demanded by the promoted
header token (spec §3.3): a `SequenceStart` header carries a `Sequence`
value, a `PixelSequenceStart` header a `PixelSequence`, anything else a
`Primitive`. -/
def headerValueAgree (h : DataElementHeader) (v : Value) : Bool :=
  match tokenFromHeader h, v with
  | .sequenceStart _ _, .sequence _ _ => true
  | .pixelSequenceStart, .pixelSequence _ _ => true
  | .elementHeader _, .primitive _ => true
  | _, _ => false

mutual

/-- A structured element is well formed when its header and value agree and
all nested elements are well formed. -/
def wellFormedElem : DataElement → Bool
  | .mk h v => headerValueAgree h v && wellFormedValue v

def wellFormedValue : Value → Bool
  | .primitive _ => true
  | .sequence items _ => wellFormedObjList items
  | .pixelSequence _ _ => true

def wellFormedObjList : List DicomObject → Bool
  | [] => true
  | o :: rest => wellFormedObj o && wellFormedObjList rest

def wellFormedObj : DicomObject → Bool
  | .mk elems => wellFormedElemList elems

def wellFormedElemList : List DataElement → Bool
  | [] => true
  | e :: rest => wellFormedElem e && wellFormedElemList rest

end

/-! ## Bracket balance of a token stream (spec §3.3)

The well-formedness property of claim C4 is formalised with a stack-based
validator: sequence/pixel-sequence/item brackets push and pop frames, and an
`ItemValue` token is accepted only when the innermost open bracket is an item
whose parent bracket is a pixel sequence. -/

/-- An open bracket: a sequence, a pixel sequence, or an item. -/
inductive Frame where
  | seq
  | pix
  | item
deriving DecidableEq, Repr

/-- One validator step: the new stack of open brackets, or `none` when the
token is ill-bracketed at this position. -/
def bracketStep (st : List Frame) : DataToken → Option (List Frame)
  | .sequenceStart _ _ => some (.seq :: st)
  | .pixelSequenceStart => some (.pix :: st)
  | .itemStart _ => some (.item :: st)
  | .sequenceEnd =>
    match st with
    | .seq :: rest => some rest
    | .pix :: rest => some rest
    | _ => none
  | .itemEnd =>
    match st with
    | .item :: rest => some rest
    | _ => none
  | .itemValue _ =>
    match st with
    | .item :: .pix :: _ => some st
    | _ => none
  | .elementHeader _ => some st
  | .primitiveValue _ => some st

/-- Runs the validator over a token list. -/
def bracketRun (st : List Frame) : List DataToken → Option (List Frame)
  | [] => some st
  | t :: ts =>
    match bracketStep st t with
    | some st' => bracketRun st' ts
    | none => none

/-- A balanced token stream: the validator accepts it and ends with no open
brackets. -/
def balancedTokens (ts : List DataToken) : Bool := bracketRun [] ts = some []

/-- The validator processes concatenations sequentially. -/
theorem bracketRun_append (xs ys : List DataToken) :
    ∀ st, bracketRun st (xs ++ ys) =
      (bracketRun st xs).bind (fun st' => bracketRun st' ys) := by
  induction xs with
  | nil => intro st; simp [bracketRun]
  | cons t ts ih =>
    intro st
    simp only [List.cons_append, bracketRun]
    cases bracketStep st t with
    | none => rfl
    | some st' => exact ih st'

/-- Unfolding one validator step. -/
theorem bracketRun_cons (st : List Frame) (t : DataToken)
    (ts : List DataToken) :
    bracketRun st (t :: ts) =
      match bracketStep st t with
      | some st' => bracketRun st' ts
      | none => none := rfl

/-- An `ItemValueTokens` emission is bracket-neutral under an open pixel
sequence. -/
theorem bracketRun_itemValueTokenList (b : List Nat) (st : List Frame) :
    bracketRun (.pix :: st) (itemValueTokenList b) = some (.pix :: st) := by
  unfold itemValueTokenList
  by_cases h : b.length % 4294967296 = 0 <;>
    simp [h, bracketRun, bracketStep]

/-- The flattened fragment items are bracket-neutral under an open pixel
sequence. -/
theorem bracketRun_fragments (frags : List (List Nat)) (st : List Frame) :
    bracketRun (.pix :: st) ((frags.map itemValueTokenList).flatten) =
      some (.pix :: st) := by
  induction frags with
  | nil => simp [bracketRun]
  | cons b rest ih =>
    simp only [List.map_cons, List.flatten_cons]
    rw [bracketRun_append, bracketRun_itemValueTokenList]
    simpa using ih

/-- An item wrapping bracket-neutral object tokens is bracket-neutral. -/
theorem bracketRun_itemTokenList (ts : List DataToken)
    (hts : ∀ st, bracketRun st ts = some st) (len : Length)
    (st : List Frame) :
    bracketRun st (itemTokenList len ts) = some st := by
  unfold itemTokenList
  show bracketRun (.item :: st) (ts ++ [.itemEnd]) = some st
  rw [bracketRun_append, hts (.item :: st)]
  simp [bracketRun, bracketStep]

/-- `elementTokens` on a sequence-start header with a sequence value. -/
theorem elementTokens_seq_eq (hd : DataElementHeader) (items : List DicomObject)
    (size : Length) (t : Tag) (l : Length)
    (htok : tokenFromHeader hd = .sequenceStart t l)
    (ts : List DataToken) (hts : itemListTokens items = some ts) :
    elementTokens (.mk hd (.sequence items size)) =
      some (.sequenceStart t l :: ts ++ [.sequenceEnd]) := by
  unfold elementTokens
  rw [htok]
  simp [hts]

/-- `elementTokens` on a pixel-sequence-start header with a pixel-sequence
value. -/
theorem elementTokens_pixel_eq (hd : DataElementHeader)
    (offsetTable : List Nat) (fragments : List (List Nat))
    (htok : tokenFromHeader hd = .pixelSequenceStart) :
    elementTokens (.mk hd (.pixelSequence offsetTable fragments)) =
      some (.pixelSequenceStart :: itemValueTokenList offsetTable
        ++ (fragments.map itemValueTokenList).flatten ++ [.sequenceEnd]) := by
  unfold elementTokens
  rw [htok]

/-- `elementTokens` on a plain element header with a primitive value. -/
theorem elementTokens_primitive_eq (hd h' : DataElementHeader)
    (pv : PrimitiveValue) (htok : tokenFromHeader hd = .elementHeader h') :
    elementTokens (.mk hd (.primitive pv)) =
      some [.elementHeader hd, .primitiveValue pv] := by
  unfold elementTokens
  rw [htok]

mutual

/-- A well-formed element tokenizes without fault and its tokens are
bracket-neutral from every stack. -/
theorem elemTokens_bracket (e : DataElement) (h : wellFormedElem e = true) :
    ∃ ts, elementTokens e = some ts ∧ ∀ st, bracketRun st ts = some st := by
  match e, h with
  | .mk hd v, h => ?_
  simp only [wellFormedElem, Bool.and_eq_true] at h
  obtain ⟨hagree, hval⟩ := h
  cases htok : tokenFromHeader hd with
  | sequenceStart t l =>
    cases v with
    | sequence items size =>
      simp only [wellFormedValue] at hval
      obtain ⟨ts, hts, hrun⟩ := itemList_bracket items hval
      refine ⟨.sequenceStart t l :: ts ++ [.sequenceEnd],
        elementTokens_seq_eq hd items size t l htok ts hts, ?_⟩
      · intro st
        show bracketRun (.seq :: st) (ts ++ [.sequenceEnd]) = some st
        rw [bracketRun_append, hrun (.seq :: st)]
        simp [bracketRun, bracketStep]
    | primitive pv => simp [headerValueAgree, htok] at hagree
    | pixelSequence o f => simp [headerValueAgree, htok] at hagree
  | pixelSequenceStart =>
    cases v with
    | pixelSequence offsetTable fragments =>
      refine ⟨.pixelSequenceStart :: itemValueTokenList offsetTable
        ++ (fragments.map itemValueTokenList).flatten ++ [.sequenceEnd],
        elementTokens_pixel_eq hd offsetTable fragments htok, ?_⟩
      intro st
      show bracketRun (.pix :: st)
        ((itemValueTokenList offsetTable
          ++ (fragments.map itemValueTokenList).flatten) ++ [.sequenceEnd]) =
        some st
      rw [bracketRun_append, bracketRun_append,
        bracketRun_itemValueTokenList]
      simp only [Option.some_bind]
      rw [bracketRun_fragments]
      simp [bracketRun, bracketStep]
    | primitive pv => simp [headerValueAgree, htok] at hagree
    | sequence items size => simp [headerValueAgree, htok] at hagree
  | elementHeader h' =>
    cases v with
    | primitive pv =>
      refine ⟨[.elementHeader hd, .primitiveValue pv],
        elementTokens_primitive_eq hd h' pv htok, ?_⟩
      · intro st; simp [bracketRun, bracketStep]
    | sequence items size => simp [headerValueAgree, htok] at hagree
    | pixelSequence o f => simp [headerValueAgree, htok] at hagree
  | sequenceEnd => cases v <;> simp [headerValueAgree, htok] at hagree
  | itemStart l => cases v <;> simp [headerValueAgree, htok] at hagree
  | itemEnd => cases v <;> simp [headerValueAgree, htok] at hagree
  | primitiveValue pv => cases v <;> simp [headerValueAgree, htok] at hagree
  | itemValue b => cases v <;> simp [headerValueAgree, htok] at hagree
termination_by sizeOf e

/-- Well-formed items tokenize without fault and are bracket-neutral. -/
theorem itemList_bracket (items : List DicomObject)
    (h : wellFormedObjList items = true) :
    ∃ ts, itemListTokens items = some ts ∧
      ∀ st, bracketRun st ts = some st := by
  match items with
  | [] => exact ⟨[], by simp [itemListTokens], fun st => rfl⟩
  | o :: rest =>
    simp only [wellFormedObjList, Bool.and_eq_true] at h
    obtain ⟨ho, hrest⟩ := h
    obtain ⟨ts, hts, hruno⟩ := obj_bracket o ho
    obtain ⟨rs, hrs, hrunr⟩ := itemList_bracket rest hrest
    refine ⟨itemTokenList Length.UNDEFINED ts ++ rs, ?_, ?_⟩
    · simp [itemListTokens, hts, hrs]
    · intro st
      rw [bracketRun_append, bracketRun_itemTokenList ts hruno]
      simpa using hrunr st
termination_by sizeOf items

/-- A well-formed nested data set tokenizes without fault and is
bracket-neutral. -/
theorem obj_bracket (o : DicomObject) (h : wellFormedObj o = true) :
    ∃ ts, objectTokens o = some ts ∧ ∀ st, bracketRun st ts = some st := by
  match o with
  | .mk elems =>
    simp only [wellFormedObj] at h
    obtain ⟨ts, hts, hrun⟩ := elemList_bracket elems h
    exact ⟨ts, by simp [objectTokens, hts], hrun⟩
termination_by sizeOf o

/-- A well-formed element list tokenizes without fault and is
bracket-neutral. -/
theorem elemList_bracket (es : List DataElement)
    (h : wellFormedElemList es = true) :
    ∃ ts, elemListTokens es = some ts ∧
      ∀ st, bracketRun st ts = some st := by
  match es with
  | [] => exact ⟨[], by simp [elemListTokens], fun st => rfl⟩
  | e :: rest =>
    simp only [wellFormedElemList, Bool.and_eq_true] at h
    obtain ⟨he, hrest⟩ := h
    obtain ⟨ts, hts, hrune⟩ := elemTokens_bracket e he
    obtain ⟨rs, hrs, hrunr⟩ := elemList_bracket rest hrest
    refine ⟨ts ++ rs, ?_, ?_⟩
    · simp [elemListTokens, hts, hrs]
    · intro st
      rw [bracketRun_append, hrune st]
      simpa using hrunr st
termination_by sizeOf es

end

/-- C4: for every well-formed structured element (header-value agreement at
every level), tokenization succeeds and the produced token sequence is
bracket-balanced: sequence and pixel-sequence starts are matched by a
`SequenceEnd` at the correct depth, item starts by an `ItemEnd`, and
`ItemValue` tokens occur only directly inside an item directly inside a
pixel-sequence bracket (as checked by the stack validator). -/
theorem wellformed_tokens_balanced (e : DataElement)
    (h : wellFormedElem e = true) :
    ∃ ts, elementTokens e = some ts ∧ balancedTokens ts = true := by
  obtain ⟨ts, hts, hrun⟩ := elemTokens_bracket e h
  refine ⟨ts, hts, ?_⟩
  simp [balancedTokens, hrun []]

/-- Witness for C4 at a concrete nested element (a sequence holding one item
with a primitive element and an encapsulated pixel-data element). -/
theorem wellformed_tokens_balanced_witness :
    wellFormedElem (.mk ⟨⟨0x40, 0x275⟩, .SQ, .UNDEFINED⟩
      (.sequence [.mk
        [.mk ⟨⟨8, 0x100⟩, .SH, ⟨6⟩⟩ (.primitive ⟨"CODE1"⟩),
         .mk ⟨pixelDataTag, .OB, .UNDEFINED⟩
           (.pixelSequence [] [[170, 187]])]] ⟨0⟩)) = true
    ∧ ∃ ts, elementTokens (.mk ⟨⟨0x40, 0x275⟩, .SQ, .UNDEFINED⟩
      (.sequence [.mk
        [.mk ⟨⟨8, 0x100⟩, .SH, ⟨6⟩⟩ (.primitive ⟨"CODE1"⟩),
         .mk ⟨pixelDataTag, .OB, .UNDEFINED⟩
           (.pixelSequence [] [[170, 187]])]] ⟨0⟩)) = some ts
      ∧ balancedTokens ts = true :=
  ⟨by decide, wellformed_tokens_balanced _ (by decide)⟩

/-! ## Token shapes of sequences and pixel sequences (C1, C3) -/

/-- The flattened item tokens of a sequence, as a function of each object's
token list. -/
theorem itemListTokens_eq (items : List DicomObject)
    (h : ∀ o ∈ items, (objectTokens o).isSome = true) :
    itemListTokens items = some ((items.map (fun o =>
      itemTokenList Length.UNDEFINED ((objectTokens o).getD []))).flatten) := by
  induction items with
  | nil => simp [itemListTokens]
  | cons o rest ih =>
    obtain ⟨ts, hts⟩ :=
      Option.isSome_iff_exists.mp (h o (List.mem_cons_self o rest))
    rw [List.map_cons, List.flatten_cons]
    unfold itemListTokens
    rw [hts, ih (fun o' ho' => h o' (List.mem_cons_of_mem o ho'))]
    simp [hts]

/-- Every member of a well-formed item list is well formed. -/
theorem wellFormedObjList_mem (items : List DicomObject)
    (h : wellFormedObjList items = true) :
    ∀ o ∈ items, wellFormedObj o = true := by
  induction items with
  | nil => intro o ho; simp at ho
  | cons o0 rest ih =>
    intro o ho
    simp only [wellFormedObjList, Bool.and_eq_true] at h
    rcases List.mem_cons.mp ho with rfl | ho'
    · exact h.1
    · exact ih h.2 o ho'

/-- The `DataElementTokens` machine, run from `Start` with enough fuel,
emits exactly the `elementTokens` sequence of a well-formed element. -/
theorem detNext_simulates_elementTokens (e : DataElement)
    (h : wellFormedElem e = true) :
    ∃ ts, elementTokens e = some ts
      ∧ ∀ k, runFuel detNext (ts.length + 1 + k) (.start e) = ts := by
  rcases e with ⟨hd, v⟩
  simp only [wellFormedElem, Bool.and_eq_true] at h
  obtain ⟨hagree, hval⟩ := h
  cases htok : tokenFromHeader hd with
  | sequenceStart t l =>
    cases v with
    | sequence items size =>
      simp only [wellFormedValue] at hval
      have hsome : ∀ o ∈ items, (objectTokens o).isSome = true := by
        intro o ho
        obtain ⟨ts, hts, _⟩ :=
          obj_bracket o (wellFormedObjList_mem items hval o ho)
        simp [hts]
      have hlist := itemListTokens_eq items hsome
      have helem : elementTokens (.mk hd (.sequence items size)) =
          some (.sequenceStart t l ::
            ((items.map (fun o => itemTokenList Length.UNDEFINED
              ((objectTokens o).getD []))).flatten) ++ [.sequenceEnd]) :=
        elementTokens_seq_eq hd items size t l htok _ hlist
      refine ⟨_, helem, ?_⟩
      intro k
      have hstep : detNext (.start (.mk hd (.sequence items size))) =
          some (.sequenceStart t l, .items
            ⟨items.map (fun o => itemTokenList Length.UNDEFINED
              ((objectTokens o).getD [])), none⟩) := by
        unfold detNext
        rw [htok]
      rw [show (DataToken.sequenceStart t l ::
            ((items.map (fun o => itemTokenList Length.UNDEFINED
              ((objectTokens o).getD []))).flatten)
            ++ [DataToken.sequenceEnd]).length + 1 + k =
          (((items.map (fun o => itemTokenList Length.UNDEFINED
              ((objectTokens o).getD []))).flatten).length + 2 + k) + 1
          from by simp; omega, runFuel_step, hstep]
      show DataToken.sequenceStart t l :: runFuel detNext
        (((items.map (fun o => itemTokenList Length.UNDEFINED
          ((objectTokens o).getD []))).flatten).length + 2 + k)
        (.items ⟨items.map (fun o => itemTokenList Length.UNDEFINED
          ((objectTokens o).getD [])), none⟩) = _
      rw [det_items_run _ _ (by simp [flattenRemaining]) k]
      simp [flattenRemaining]
    | primitive pv => simp [headerValueAgree, htok] at hagree
    | pixelSequence o f => simp [headerValueAgree, htok] at hagree
  | pixelSequenceStart =>
    cases v with
    | pixelSequence offsetTable fragments =>
      have helem := elementTokens_pixel_eq hd offsetTable fragments htok
      refine ⟨_, helem, ?_⟩
      intro k
      have hstep : detNext (.start (.mk hd
          (.pixelSequence offsetTable fragments))) =
          some (.pixelSequenceStart,
            .pixelData fragments (.start offsetTable)) := by
        unfold detNext
        rw [htok]
      rw [show (DataToken.pixelSequenceStart ::
            itemValueTokenList offsetTable
            ++ (fragments.map itemValueTokenList).flatten
            ++ [DataToken.sequenceEnd]).length + 1 + k =
          ((itemValueTokenList offsetTable).length
            + ((fragments.map itemValueTokenList).flatten).length + 2 + k) + 1
          from by simp; omega, runFuel_step, hstep]
      show DataToken.pixelSequenceStart :: runFuel detNext
        ((itemValueTokenList offsetTable).length
          + ((fragments.map itemValueTokenList).flatten).length + 2 + k)
        (.pixelData fragments (.start offsetTable)) = _
      rw [det_pixel_run (itemValueTokenList offsetTable).length
        (.start offsetTable) fragments le_rfl k]
      show DataToken.pixelSequenceStart ::
        (itemValueTokenList offsetTable
          ++ (fragments.map itemValueTokenList).flatten
          ++ [DataToken.sequenceEnd]) = _
      rfl
    | primitive pv => simp [headerValueAgree, htok] at hagree
    | sequence items size => simp [headerValueAgree, htok] at hagree
  | elementHeader h' =>
    cases v with
    | primitive pv =>
      refine ⟨[.elementHeader hd, .primitiveValue pv],
        elementTokens_primitive_eq hd h' pv htok, ?_⟩
      intro k
      have hstep1 : detNext (.start (.mk hd (.primitive pv))) =
          some (.elementHeader hd, .headerState (.mk hd (.primitive pv))) := by
        unfold detNext
        rw [htok]
      have hstep2 : detNext (.headerState (.mk hd (.primitive pv))) =
          some (.primitiveValue pv, .endState) := by
        unfold detNext
        rfl
      rw [show ([DataToken.elementHeader hd,
            DataToken.primitiveValue pv]).length + 1 + k = ((k + 1) + 1) + 1
          from by simp; omega, runFuel_step, hstep1]
      show DataToken.elementHeader hd :: runFuel detNext ((k + 1) + 1)
        (.headerState (.mk hd (.primitive pv))) = _
      rw [runFuel_step, hstep2]
      show DataToken.elementHeader hd :: DataToken.primitiveValue pv ::
        runFuel detNext (k + 1) .endState = _
      rw [runFuel_of_none detNext .endState detNext_endState_eq]
    | sequence items size => simp [headerValueAgree, htok] at hagree
    | pixelSequence o f => simp [headerValueAgree, htok] at hagree
  | sequenceEnd => cases v <;> simp [headerValueAgree, htok] at hagree
  | itemStart l => cases v <;> simp [headerValueAgree, htok] at hagree
  | itemEnd => cases v <;> simp [headerValueAgree, htok] at hagree
  | primitiveValue pv => cases v <;> simp [headerValueAgree, htok] at hagree
  | itemValue b => cases v <;> simp [headerValueAgree, htok] at hagree

/-- The token shape stated by claim C3: `SequenceStart{tag, len}`, then per
item an `ItemStart` with undefined length, the item object's tokens, and an
`ItemEnd`, then a single `SequenceEnd`. -/
def claimSequenceTokens (tag : Tag) (len : Length)
    (objTokenLists : List (List DataToken)) : List DataToken :=
  .sequenceStart tag len ::
    (objTokenLists.map (fun ts =>
      .itemStart Length.UNDEFINED :: ts ++ [.itemEnd])).flatten
    ++ [.sequenceEnd]

/-- C3: for every sequence element (VR=SQ, value Sequence) whose nested
objects tokenize, the tokenizer emits `SequenceStart{tag, len}`, then for
each item in document order an `ItemStart` with undefined length, the tokens
of the item's nested object in order, and `ItemEnd`, and after the last item
a single `SequenceEnd`; in particular the empty sequence yields exactly
`SequenceStart` followed by `SequenceEnd`. -/
theorem sequence_token_shape (tag : Tag) (len : Length)
    (items : List DicomObject) (size : Length)
    (h : ∀ o ∈ items, (objectTokens o).isSome = true) :
    elementTokens (.mk ⟨tag, .SQ, len⟩ (.sequence items size)) =
      some (claimSequenceTokens tag len
        (items.map (fun o => (objectTokens o).getD [])))
    ∧ elementTokens (.mk ⟨tag, .SQ, len⟩ (.sequence [] size)) =
      some [.sequenceStart tag len, .sequenceEnd] := by
  have htok : tokenFromHeader ⟨tag, .SQ, len⟩ = .sequenceStart tag len := by
    simp [tokenFromHeader]
  constructor
  · rw [elementTokens_seq_eq ⟨tag, .SQ, len⟩ items size tag len htok _
      (itemListTokens_eq items h)]
    simp only [claimSequenceTokens, itemTokenList, List.map_map]
    rfl
  · rw [elementTokens_seq_eq ⟨tag, .SQ, len⟩ [] size tag len htok []
      (by simp [itemListTokens])]
    rfl

/-- Witness for C3 at spec scenario S3 (a sequence with one item holding one
primitive element). -/
theorem sequence_token_shape_witness :
    (∀ o ∈ [DicomObject.mk
        [.mk ⟨⟨8, 0x100⟩, .SH, ⟨6⟩⟩ (.primitive ⟨"CODE1"⟩)]],
      (objectTokens o).isSome = true)
    ∧ elementTokens (.mk ⟨⟨0x40, 0x275⟩, .SQ, .UNDEFINED⟩
        (.sequence [DicomObject.mk
          [.mk ⟨⟨8, 0x100⟩, .SH, ⟨6⟩⟩ (.primitive ⟨"CODE1"⟩)]] ⟨0⟩)) =
      some (claimSequenceTokens ⟨0x40, 0x275⟩ .UNDEFINED
        ([DicomObject.mk
          [.mk ⟨⟨8, 0x100⟩, .SH, ⟨6⟩⟩ (.primitive ⟨"CODE1"⟩)]].map
            (fun o => (objectTokens o).getD []))) :=
  ⟨by decide, (sequence_token_shape ⟨0x40, 0x275⟩ .UNDEFINED
    [DicomObject.mk [.mk ⟨⟨8, 0x100⟩, .SH, ⟨6⟩⟩ (.primitive ⟨"CODE1"⟩)]]
    ⟨0⟩ (by decide)).1⟩

/-- C1, amended for the 32-bit length truncation: for a pixel-sequence
element the tokenizer emits `PixelSequenceStart`; then for the offset table
`B` an `ItemStart` of length `|B| mod 2^32` (the Rust `usize`-to-`u32` cast),
`ItemValue(B)` present exactly when `|B| mod 2^32` is nonzero, and `ItemEnd`;
then the same three-token (or two-token) pattern for each fragment in order;
and finally a single `SequenceEnd`. -/
theorem pixel_sequence_token_shape (hd : DataElementHeader)
    (offset : List Nat) (fragments : List (List Nat))
    (h1 : hd.vr = VR.OB) (h2 : hd.tag = pixelDataTag)
    (h3 : hd.len.is_undefined = true) :
    elementTokens (.mk hd (.pixelSequence offset fragments)) =
      some (.pixelSequenceStart ::
        (.itemStart ⟨offset.length % 2 ^ 32⟩ ::
          (if offset.length % 2 ^ 32 = 0 then [] else [.itemValue offset])
          ++ [.itemEnd])
        ++ (fragments.map (fun b => .itemStart ⟨b.length % 2 ^ 32⟩ ::
          (if b.length % 2 ^ 32 = 0 then [] else [.itemValue b])
          ++ [.itemEnd])).flatten
        ++ [.sequenceEnd]) := by
  have htok : tokenFromHeader hd = .pixelSequenceStart := by
    simp [tokenFromHeader, h1, h2, h3]
  rw [elementTokens_pixel_eq hd offset fragments htok]
  rfl

/-- Witness for C1 at spec scenario S4 (empty offset table, two fragments). -/
theorem pixel_sequence_token_shape_witness :
    ((⟨pixelDataTag, .OB, .UNDEFINED⟩ : DataElementHeader).vr = VR.OB
      ∧ (⟨pixelDataTag, .OB, .UNDEFINED⟩ : DataElementHeader).tag = pixelDataTag
      ∧ (⟨pixelDataTag, .OB, .UNDEFINED⟩ :
          DataElementHeader).len.is_undefined = true)
    ∧ elementTokens (.mk ⟨pixelDataTag, .OB, .UNDEFINED⟩
        (.pixelSequence [] [[170, 187], [204]])) =
      some (.pixelSequenceStart ::
        (.itemStart ⟨([] : List Nat).length % 2 ^ 32⟩ ::
          (if ([] : List Nat).length % 2 ^ 32 = 0 then []
            else [.itemValue []]) ++ [.itemEnd])
        ++ ([[170, 187], [204]].map
          (fun b => DataToken.itemStart ⟨b.length % 2 ^ 32⟩ ::
            (if b.length % 2 ^ 32 = 0 then [] else [.itemValue b])
            ++ [.itemEnd])).flatten
        ++ [.sequenceEnd]) :=
  ⟨⟨rfl, rfl, rfl⟩, pixel_sequence_token_shape ⟨pixelDataTag, .OB, .UNDEFINED⟩
    [] [[170, 187], [204]] rfl rfl rfl⟩

/-- Counterexample to C1 as literally stated: for an offset table of
exactly 2^32 bytes (non-empty), the emitted `ItemStart` length is 0, not
`|offset|`, and no `ItemValue(offset)` token is emitted at all, because
`Length(value.as_ref().len() as u32)` truncates the length to 32 bits and
the `len == Length(0)` check then routes past the value state. -/
theorem pixel_sequence_shape_counterexample :
    elementTokens (.mk ⟨pixelDataTag, .OB, .UNDEFINED⟩
        (.pixelSequence (List.replicate (2 ^ 32) 0) [])) =
      some [.pixelSequenceStart, .itemStart ⟨0⟩, .itemEnd, .sequenceEnd]
    ∧ List.replicate (2 ^ 32) 0 ≠ ([] : List Nat)
    ∧ DataToken.itemValue (List.replicate (2 ^ 32) 0) ∉
        ([.pixelSequenceStart, .itemStart ⟨0⟩, .itemEnd, .sequenceEnd] :
          List DataToken) := by
  have hlen : (List.replicate (2 ^ 32) (0 : Nat)).length = 2 ^ 32 :=
    List.length_replicate _ _
  refine ⟨?_, ?_, ?_⟩
  · have htok : tokenFromHeader ⟨pixelDataTag, .OB, .UNDEFINED⟩ =
        .pixelSequenceStart := by
      unfold tokenFromHeader
      rw [if_pos ⟨rfl, rfl, rfl⟩]
    rw [elementTokens_pixel_eq _ _ _ htok]
    have hiv : itemValueTokenList (List.replicate (2 ^ 32) 0) =
        [.itemStart ⟨0⟩, .itemEnd] := by
      unfold itemValueTokenList
      rw [hlen, Nat.mod_self]
      rfl
    rw [hiv]
    rfl
  · intro hc
    rw [hc] at hlen
    exact absurd hlen.symm (by decide)
  · intro hmem
    cases hmem with
    | tail _ h1 =>
      cases h1 with
      | tail _ h2 =>
        cases h2 with
        | tail _ h3 =>
          cases h3 with
          | tail _ h4 => exact (List.not_mem_nil _) h4

/-! ## Token equality (C6) -/

/-- C6: any two tokens that differ only in the bit pattern of an undefined
length compare equal; lengths of `ElementHeader`, `SequenceStart` and
`ItemStart` are compared via `inner_eq` (undefined equals undefined); the
nullary variants compare equal exactly to their own kind; `PrimitiveValue`
and `ItemValue` compare by value and by byte sequence. -/
theorem token_equality_undef_lengths (t : Tag) (v : VR) (l1 l2 : Length)
    (h1 : l1.is_undefined = true) (h2 : l2.is_undefined = true) :
    (dtEq (.elementHeader ⟨t, v, l1⟩) (.elementHeader ⟨t, v, l2⟩) = true
      ∧ dtEq (.sequenceStart t l1) (.sequenceStart t l2) = true
      ∧ dtEq (.itemStart l1) (.itemStart l2) = true)
    ∧ (∀ (t2 : Tag) (v2 : VR) (l3 l4 : Length),
        (dtEq (.elementHeader ⟨t, v, l3⟩) (.elementHeader ⟨t2, v2, l4⟩) = true
          ↔ (t = t2 ∧ v = v2 ∧ l3.inner_eq l4 = true))
        ∧ (dtEq (.sequenceStart t l3) (.sequenceStart t2 l4) = true
          ↔ (t = t2 ∧ l3.inner_eq l4 = true))
        ∧ (dtEq (.itemStart l3) (.itemStart l4) = true
          ↔ l3.inner_eq l4 = true))
    ∧ (∀ a, dtEq .sequenceEnd a = true ↔ a = .sequenceEnd)
    ∧ (∀ a, dtEq .itemEnd a = true ↔ a = .itemEnd)
    ∧ (∀ a, dtEq .pixelSequenceStart a = true ↔ a = .pixelSequenceStart)
    ∧ (∀ p q : PrimitiveValue,
        dtEq (.primitiveValue p) (.primitiveValue q) = true ↔ p = q)
    ∧ (∀ b c : List Nat,
        dtEq (.itemValue b) (.itemValue c) = true ↔ b = c) := by
  refine ⟨⟨?_, ?_, ?_⟩, ?_, ?_, ?_, ?_, ?_, ?_⟩
  · simp [dtEq, Length.inner_eq, h1, h2]
  · simp [dtEq, Length.inner_eq, h1, h2]
  · simp [dtEq, Length.inner_eq, h1, h2]
  · intro t2 v2 l3 l4
    refine ⟨?_, ?_, ?_⟩ <;> simp [dtEq, and_assoc]
  · intro a; cases a <;> simp [dtEq]
  · intro a; cases a <;> simp [dtEq]
  · intro a; cases a <;> simp [dtEq]
  · intro p q; simp [dtEq]
  · intro b c; simp [dtEq]

/-- Witness for C6 at the concrete undefined-length bit pattern. -/
theorem token_equality_undef_lengths_witness :
    (⟨0xFFFFFFFF⟩ : Length).is_undefined = true
    ∧ dtEq (.sequenceStart ⟨1, 2⟩ ⟨0xFFFFFFFF⟩)
        (.sequenceStart ⟨1, 2⟩ ⟨0xFFFFFFFF⟩) = true :=
  ⟨by decide, ((token_equality_undef_lengths ⟨1, 2⟩ .OB ⟨0xFFFFFFFF⟩
    ⟨0xFFFFFFFF⟩ (by decide) (by decide)).1).2.1⟩

/-! ## Dictionary builder (src/dictionary-builder/src/main.rs) -/

/-- A dictionary entry as produced by `XmlEntryIterator` (main.rs lines
124-133). The `obs` field holds the notes cell; a `none` field records an
absent cell. -/
structure Entry where
  tag : String
  name : Option String
  «alias» : Option String
  vr : Option String
  vm : Option String
  obs : Option String
deriving DecidableEq, Repr

/-- The uppercase-hex character class [0-9A-F] of the three tag regexes
(lines 360-362). -/
def isHexUp (c : Char) : Bool :=
  ('0' ≤ c && c ≤ '9') || ('A' ≤ c && c ≤ 'F')

/-- Numeric value of an uppercase-hex digit. -/
def hexDigit (c : Char) : Nat :=
  if c ≤ '9' then c.toNat - '0'.toNat else c.toNat - 'A'.toNat + 10

/-- Value of a two-digit uppercase-hex capture. -/
def hex2 (a b : Char) : Nat := 16 * hexDigit a + hexDigit b

/-- Value of a four-digit uppercase-hex capture. -/
def hex4 (a b c d : Char) : Nat := 256 * hex2 a b + hex2 c d

/-- The anchored single-tag pattern (regex_tag, line 360): an open paren,
four uppercase-hex digits, a comma, four uppercase-hex digits, a close
paren. The captures are returned as the numeric values the rendered
`Tag(0xGGGG, 0xEEEE)` literal denotes. -/
def matchSingle : List Char → Option (Nat × Nat)
  | [o, a, b, c, d, m, e, f, g, h, cl] =>
    if o = '(' && m = ',' && cl = ')'
        && [a, b, c, d, e, f, g, h].all isHexUp then
      some (hex4 a b c d, hex4 e f g h)
    else none
  | _ => none

/-- The anchored group-range pattern (regex_tag_group100, line 361): two
uppercase-hex digits followed by literal `xx` in the group position. The
rendered `Tag(0xGG00, 0xEEEE)` appends `00` to the group capture, hence the
`* 256`. -/
def matchGroup100 : List Char → Option (Nat × Nat)
  | [o, a, b, x1, x2, m, e, f, g, h, cl] =>
    if o = '(' && x1 = 'x' && x2 = 'x' && m = ',' && cl = ')'
        && [a, b, e, f, g, h].all isHexUp then
      some (hex2 a b * 256, hex4 e f g h)
    else none
  | _ => none

/-- The anchored element-range pattern (regex_tag_element100, line 362):
literal `xx` in the low half of the element position. The rendered
`Tag(0xGGGG, 0xEE00)` appends `00` to the element capture. -/
def matchElement100 : List Char → Option (Nat × Nat)
  | [o, a, b, c, d, m, e, f, x1, x2, cl] =>
    if o = '(' && x1 = 'x' && x2 = 'x' && m = ',' && cl = ')'
        && [a, b, c, d, e, f].all isHexUp then
      some (hex4 a b c d, hex2 e f * 256)
    else none
  | _ => none

/-- A rendered tag expression of the generated code: `Single`, `Group100`
or `Element100` applied to a `Tag` literal
(`dicom_core::dictionary::TagRange`). -/
inductive TagRange where
  | single (t : Tag)
  | group100 (t : Tag)
  | element100 (t : Tag)
deriving DecidableEq, Repr

/-- The tag-pattern chain of `to_code_file` (lines 387-408): first the
single-tag regex, then the group-range regex, then the element-range regex;
`none` when none of the three matches. -/
def parseTagPattern (s : List Char) : Option TagRange :=
  match matchSingle s with
  | some (g, e) => some (.single ⟨g, e⟩)
  | none =>
    match matchGroup100 s with
    | some (g, e) => some (.group100 ⟨g, e⟩)
    | none =>
      match matchElement100 s with
      | some (g, e) => some (.element100 ⟨g, e⟩)
      | none => none

/-- One emitted `E { tag, alias, vr }` line of the code artifact (lines
428-432) in structured form: the rendered tag range, the alias, the first
two characters of the VR string, the VR remainder (rendered as an inline
comment when non-empty) and the notes cell (rendered as a trailing comment
when non-empty). -/
structure EntryLine where
  tagTxt : TagRange
  «alias» : String
  vr1 : List Char
  vr2 : List Char
  obs : String
deriving DecidableEq, Repr

/-- The outcome of one iteration of the entry loop of `to_code_file`. -/
inductive RowOutcome where
  | emitted (line : EntryLine)
  | skipped
  | panicked
deriving DecidableEq, Repr

/-- One iteration of the entry loop of `to_code_file` (lines 364-433):
skip when the alias is absent (lines 375-379); skip when the notes cell is
exactly "RET" and retired entries are excluded (lines 381-386); skip when
the tag matches none of the three patterns (lines 387-408); rewrite a
literal "See Note" VR to "UN See Note" and split the VR at offset 2
(lines 410-421) — `split_at` panics when the string is shorter than two
bytes (the VR cells are ASCII, so bytes and characters coincide here). -/
def processEntry (includeRetired : Bool) (e : Entry) : RowOutcome :=
  match e.«alias» with
  | none => .skipped
  | some a =>
    if e.obs = some "RET" && !includeRetired then .skipped
    else
      match parseTagPattern e.tag.data with
      | none => .skipped
      | some tagTxt =>
        let vr0 := e.vr.getD ""
        let vr := if vr0 = "See Note" then "UN See Note" else vr0
        if vr.data.length < 2 then .panicked
        else .emitted ⟨tagTxt, a, vr.data.take 2, vr.data.drop 2,
          e.obs.getD ""⟩

/-- The entry loop of `to_code_file`: the emitted entry lines in input
order, or `none` when a row panics (a panic aborts the whole run). The
fixed file header and the closing bracket are elided. -/
def to_code_file (includeRetired : Bool) : List Entry → Option (List EntryLine)
  | [] => some []
  | e :: rest =>
    match processEntry includeRetired e with
    | .panicked => none
    | .skipped => to_code_file includeRetired rest
    | .emitted line => (to_code_file includeRetired rest).map (line :: ·)

/-- Whether the first list is a prefix of the second (mirrors
`str::starts_with` used for the scheme check in `main`, line 84). -/
def listHasPrefix : List Char → List Char → Bool
  | [], _ => true
  | _ :: _, [] => false
  | p :: ps, s :: ss => p = s && listHasPrefix ps ss

/-- The source dispatch of `main` for the code format (lines 84-113): an
http(s) source runs `to_code_file` with `include_retired = !ignore_retired`
(line 92); a local file source runs it with `include_retired` hardcoded to
`true` (line 108). -/
def runIngestorCode (src : String) (ignoreRetired : Bool)
    (entries : List Entry) : Option (List EntryLine) :=
  if listHasPrefix "http:".data src.data
      || listHasPrefix "https:".data src.data then
    to_code_file (!ignoreRetired) entries
  else
    to_code_file true entries

/-- A serialized JSON value of the data artifact: a string or null (serde
serializes a present `Option` field as its value and an absent one as null,
except where skipped). -/
inductive JsonVal where
  | str (s : String)
  | nullVal
deriving DecidableEq, Repr

/-- Serialization of an optional string field. -/
def jsonOpt : Option String → JsonVal
  | some s => .str s
  | none => .nullVal

/-- The field list serde serializes for an `Entry` (lines 124-133): the
fields in declaration order, with the `obs` key skipped when the field is
`None` (`skip_serializing_if = "Option::is_none"`, line 131). -/
def serializeEntry (e : Entry) : List (String × JsonVal) :=
  [("tag", .str e.tag), ("name", jsonOpt e.name), ("alias", jsonOpt e.«alias»),
    ("vr", jsonOpt e.vr), ("vm", jsonOpt e.vm)]
  ++ (match e.obs with
      | some s => [("obs", JsonVal.str s)]
      | none => [])

/-- Insertion into a `BTreeMap<String, Entry>` represented as a
strictly-sorted association list: keys in the string order, an insertion
with an equal key replacing the earlier value. -/
def btreeInsert : List (String × Entry) → String × Entry → List (String × Entry)
  | [], kv => [kv]
  | (k', v') :: rest, (k, v) =>
    if k < k' then (k, v) :: (k', v') :: rest
    else if k = k' then (k, v) :: rest
    else (k', v') :: btreeInsert rest (k, v)

/-- The map construction of `to_json_file` (lines 438-452):
`entries.into_iter().map(|v| (v.tag.clone(), v)).collect()` into a
`BTreeMap<String, Entry>`, whose iteration order is ascending key order. -/
def to_json_file (entries : List Entry) : List (String × Entry) :=
  entries.foldl (fun acc e => btreeInsert acc (e.tag, e)) []

/-- C10: an entry whose VR cell is absent — the VR string defaults to the
empty string and stays shorter than two bytes after the "See Note"
rewrite — drives `to_code_file` into the unguarded byte-offset-2 split,
which panics instead of emitting an entry or returning an error. -/
theorem missing_vr_panics :
    processEntry true ⟨"(0008,0100)", some "Name", some "TestAlias",
      none, none, none⟩ = .panicked
    ∧ to_code_file true [⟨"(0008,0100)", some "Name", some "TestAlias",
      none, none, none⟩] = none := by
  constructor <;> rfl

/-- C7 evidence: with a local-file source, `main` passes
`include_retired = true` regardless of the `--no-retired` flag (line 108),
so a row whose notes cell is "RET" is emitted even though the flag is set;
the same invocation through the URL branch honors the flag and skips the
row. -/
theorem no_retired_flag_ignored_for_file_source :
    runIngestorCode "dict/part06.xml" true
      [⟨"(0008,0100)", some "Name", some "TestAlias", some "SH", some "1",
        some "RET"⟩] =
      some [⟨.single ⟨8, 256⟩, "TestAlias", ['S', 'H'], [], "RET"⟩]
    ∧ runIngestorCode "http://dicom.nema.org/part06.xml" true
      [⟨"(0008,0100)", some "Name", some "TestAlias", some "SH", some "1",
        some "RET"⟩] = some []
    ∧ (∀ (src : String) (flag : Bool),
        runIngestorCode src flag
          [⟨"(0008,0100)", some "Name", none, some "SH", some "1", none⟩] =
          some []) := by
  refine ⟨rfl, rfl, ?_⟩
  intro src flag
  unfold runIngestorCode
  split <;> cases flag <;> rfl

/-! ## Tag-pattern exclusivity and rendering (C8) -/

/-- A character of the uppercase-hex class is not the literal `x`. -/
theorem hexUp_ne_x (ch : Char) (h : isHexUp ch = true) : ch ≠ 'x' := by
  intro hceq
  subst hceq
  exact absurd h (by decide)

/-- Inversion of a single-tag match: the subject is an 11-character
parenthesized form whose third and eighth inner characters are hex, and the
captures are the two four-digit hex values. -/
theorem matchSingle_shape (s : List Char) (p : Nat × Nat)
    (h : matchSingle s = some p) :
    ∃ o a b c d m e f g hh cl, s = [o, a, b, c, d, m, e, f, g, hh, cl]
      ∧ isHexUp c = true ∧ isHexUp g = true
      ∧ p = (hex4 a b c d, hex4 e f g hh) := by
  unfold matchSingle at h
  split at h
  · rename_i o a b c d m e f g hh cl
    split at h
    · rename_i hguard
      simp only [Bool.and_eq_true, decide_eq_true_eq] at hguard
      obtain ⟨⟨⟨ho, hm⟩, hcl⟩, hall⟩ := hguard
      simp only [Option.some.injEq] at h
      refine ⟨o, a, b, c, d, m, e, f, g, hh, cl, rfl, ?_, ?_, h.symm⟩
      · exact List.all_eq_true.mp hall c (by simp)
      · exact List.all_eq_true.mp hall g (by simp)
    · exact absurd h (by simp)
  · exact absurd h (by simp)

/-- Inversion of a group-range match: the subject is an 11-character form
whose third inner character is the literal `x` and whose eighth is hex, and
the group capture is rendered with two appended zero digits. -/
theorem matchGroup100_shape (s : List Char) (p : Nat × Nat)
    (h : matchGroup100 s = some p) :
    ∃ o a b x1 x2 m e f g hh cl, s = [o, a, b, x1, x2, m, e, f, g, hh, cl]
      ∧ x1 = 'x' ∧ isHexUp g = true
      ∧ p = (hex2 a b * 256, hex4 e f g hh) := by
  unfold matchGroup100 at h
  split at h
  · rename_i o a b x1 x2 m e f g hh cl
    split at h
    · rename_i hguard
      simp only [Bool.and_eq_true, decide_eq_true_eq] at hguard
      obtain ⟨⟨⟨⟨⟨ho, hx1⟩, hx2⟩, hm⟩, hcl⟩, hall⟩ := hguard
      simp only [Option.some.injEq] at h
      refine ⟨o, a, b, x1, x2, m, e, f, g, hh, cl, rfl, hx1, ?_, h.symm⟩
      exact List.all_eq_true.mp hall g (by simp)
    · exact absurd h (by simp)
  · exact absurd h (by simp)

/-- Inversion of an element-range match: the subject is an 11-character
form whose third inner character is hex and whose eighth is the literal
`x`, and the element capture is rendered with two appended zero digits. -/
theorem matchElement100_shape (s : List Char) (p : Nat × Nat)
    (h : matchElement100 s = some p) :
    ∃ o a b c d m e f x1 x2 cl, s = [o, a, b, c, d, m, e, f, x1, x2, cl]
      ∧ isHexUp c = true ∧ x1 = 'x'
      ∧ p = (hex4 a b c d, hex2 e f * 256) := by
  unfold matchElement100 at h
  split at h
  · rename_i o a b c d m e f x1 x2 cl
    split at h
    · rename_i hguard
      simp only [Bool.and_eq_true, decide_eq_true_eq] at hguard
      obtain ⟨⟨⟨⟨⟨ho, hx1⟩, hx2⟩, hm⟩, hcl⟩, hall⟩ := hguard
      simp only [Option.some.injEq] at h
      refine ⟨o, a, b, c, d, m, e, f, x1, x2, cl, rfl, ?_, hx1, h.symm⟩
      exact List.all_eq_true.mp hall c (by simp)
    · exact absurd h (by simp)
  · exact absurd h (by simp)

/-- C8: the three anchored uppercase-hex tag patterns are mutually
exclusive; a single-tag match renders `Single(Tag(0xGGGG, 0xEEEE))`, a
group-range match renders `Group100` with a group value of the form
`0xGG00`, an element-range match renders `Element100` with an element value
of the form `0xEE00`; and an entry passing the alias and retired filters
whose tag matches none of the three patterns is silently skipped with no
entry emitted. -/
theorem tag_pattern_exclusive_and_rendered :
    (∀ (s : List Char) (p : Nat × Nat), matchSingle s = some p →
      matchGroup100 s = none ∧ matchElement100 s = none)
    ∧ (∀ (s : List Char) (p : Nat × Nat), matchGroup100 s = some p →
      matchSingle s = none ∧ matchElement100 s = none)
    ∧ (∀ (s : List Char) (p : Nat × Nat), matchElement100 s = some p →
      matchSingle s = none ∧ matchGroup100 s = none)
    ∧ (∀ (s : List Char) (g e : Nat), matchSingle s = some (g, e) →
      parseTagPattern s = some (.single ⟨g, e⟩))
    ∧ (∀ (s : List Char) (g e : Nat), matchGroup100 s = some (g, e) →
      parseTagPattern s = some (.group100 ⟨g, e⟩) ∧ g % 256 = 0)
    ∧ (∀ (s : List Char) (g e : Nat), matchElement100 s = some (g, e) →
      parseTagPattern s = some (.element100 ⟨g, e⟩) ∧ e % 256 = 0)
    ∧ (∀ (ir : Bool) (en : Entry) (a : String), en.«alias» = some a →
      ¬(en.obs = some "RET" ∧ ir = false) →
      parseTagPattern en.tag.data = none →
      processEntry ir en = .skipped) := by
  have exSG : ∀ (s : List Char) (p : Nat × Nat), matchSingle s = some p →
      matchGroup100 s = none := by
    intro s p h
    obtain ⟨o, a, b, c, d, m, e, f, g, hh, cl, rfl, hc, _, _⟩ :=
      matchSingle_shape s p h
    cases hmg : matchGroup100 [o, a, b, c, d, m, e, f, g, hh, cl] with
    | none => rfl
    | some q =>
      obtain ⟨_, _, _, _, _, _, _, _, _, _, _, heq, hx1, _, _⟩ :=
        matchGroup100_shape _ q hmg
      simp only [List.cons.injEq, and_true] at heq
      exact absurd hc (by rw [heq.2.2.2.1, hx1]; decide)
  have exSE : ∀ (s : List Char) (p : Nat × Nat), matchSingle s = some p →
      matchElement100 s = none := by
    intro s p h
    obtain ⟨o, a, b, c, d, m, e, f, g, hh, cl, rfl, _, hg, _⟩ :=
      matchSingle_shape s p h
    cases hme : matchElement100 [o, a, b, c, d, m, e, f, g, hh, cl] with
    | none => rfl
    | some q =>
      obtain ⟨_, _, _, _, _, _, _, _, _, _, _, heq, _, hx1, _⟩ :=
        matchElement100_shape _ q hme
      simp only [List.cons.injEq, and_true] at heq
      exact absurd hg (by rw [heq.2.2.2.2.2.2.2.2.1, hx1]; decide)
  have exGS : ∀ (s : List Char) (p : Nat × Nat), matchGroup100 s = some p →
      matchSingle s = none := by
    intro s p h
    obtain ⟨o, a, b, x1, x2, m, e, f, g, hh, cl, rfl, hx1, _, _⟩ :=
      matchGroup100_shape s p h
    cases hms : matchSingle [o, a, b, x1, x2, m, e, f, g, hh, cl] with
    | none => rfl
    | some q =>
      obtain ⟨_, _, _, _, _, _, _, _, _, _, _, heq, hc, _, _⟩ :=
        matchSingle_shape _ q hms
      simp only [List.cons.injEq, and_true] at heq
      exact absurd hc (by rw [← heq.2.2.2.1, hx1]; decide)
  have exGE : ∀ (s : List Char) (p : Nat × Nat), matchGroup100 s = some p →
      matchElement100 s = none := by
    intro s p h
    obtain ⟨o, a, b, x1, x2, m, e, f, g, hh, cl, rfl, _, hg, _⟩ :=
      matchGroup100_shape s p h
    cases hme : matchElement100 [o, a, b, x1, x2, m, e, f, g, hh, cl] with
    | none => rfl
    | some q =>
      obtain ⟨_, _, _, _, _, _, _, _, _, _, _, heq, _, hx1, _⟩ :=
        matchElement100_shape _ q hme
      simp only [List.cons.injEq, and_true] at heq
      exact absurd hg (by rw [heq.2.2.2.2.2.2.2.2.1, hx1]; decide)
  have exES : ∀ (s : List Char) (p : Nat × Nat), matchElement100 s = some p →
      matchSingle s = none := by
    intro s p h
    obtain ⟨o, a, b, c, d, m, e, f, x1, x2, cl, rfl, _, hx1, _⟩ :=
      matchElement100_shape s p h
    cases hms : matchSingle [o, a, b, c, d, m, e, f, x1, x2, cl] with
    | none => rfl
    | some q =>
      obtain ⟨_, _, _, _, _, _, _, _, _, _, _, heq, _, hg, _⟩ :=
        matchSingle_shape _ q hms
      simp only [List.cons.injEq, and_true] at heq
      exact absurd hg (by rw [← heq.2.2.2.2.2.2.2.2.1, hx1]; decide)
  have exEG : ∀ (s : List Char) (p : Nat × Nat), matchElement100 s = some p →
      matchGroup100 s = none := by
    intro s p h
    obtain ⟨o, a, b, c, d, m, e, f, x1, x2, cl, rfl, hc, _, _⟩ :=
      matchElement100_shape s p h
    cases hmg : matchGroup100 [o, a, b, c, d, m, e, f, x1, x2, cl] with
    | none => rfl
    | some q =>
      obtain ⟨_, _, _, _, _, _, _, _, _, _, _, heq, hx1, _, _⟩ :=
        matchGroup100_shape _ q hmg
      simp only [List.cons.injEq, and_true] at heq
      exact absurd hc (by rw [heq.2.2.2.1, hx1]; decide)
  refine ⟨fun s p h => ⟨exSG s p h, exSE s p h⟩,
    fun s p h => ⟨exGS s p h, exGE s p h⟩,
    fun s p h => ⟨exES s p h, exEG s p h⟩, ?_, ?_, ?_, ?_⟩
  · intro s g e h
    unfold parseTagPattern
    rw [h]
  · intro s g e h
    refine ⟨?_, ?_⟩
    · unfold parseTagPattern
      rw [exGS s (g, e) h, h]
    · obtain ⟨o, a, b, x1, x2, m, e', f, g', hh, cl, rfl, _, _, hp⟩ :=
        matchGroup100_shape s (g, e) h
      simp only [Prod.mk.injEq] at hp
      rw [hp.1]
      exact Nat.mul_mod_left _ _
  · intro s g e h
    refine ⟨?_, ?_⟩
    · unfold parseTagPattern
      rw [exES s (g, e) h, exEG s (g, e) h, h]
    · obtain ⟨o, a, b, c, d, m, e', f, x1, x2, cl, rfl, _, _, hp⟩ :=
        matchElement100_shape s (g, e) h
      simp only [Prod.mk.injEq] at hp
      rw [hp.2]
      exact Nat.mul_mod_left _ _
  · intro ir en a ha hret hparse
    unfold processEntry
    rw [ha]
    have hcond : (en.obs = some "RET" && !ir) = false := by
      by_cases hobs : en.obs = some "RET"
      · cases hir : ir
        · exact absurd ⟨hobs, hir⟩ hret
        · simp [hobs]
      · simp [hobs]
    rw [hcond]
    simp only [Bool.false_eq_true, if_false]
    rw [hparse]

/-- Witness for C8 at spec scenario S6: the group-range row `(50xx,0200)`
renders as `Group100(Tag(0x5000, 0x0200))`, and a row whose tag matches no
pattern is skipped. -/
theorem tag_pattern_exclusive_and_rendered_witness :
    matchGroup100 "(50xx,0200)".data = some (20480, 512)
    ∧ parseTagPattern "(50xx,0200)".data =
        some (.group100 ⟨20480, 512⟩)
    ∧ (⟨"(FFFF)", some "N", some "A", some "US", none, none⟩ :
        Entry).«alias» = some "A"
    ∧ parseTagPattern ("(FFFF)" : String).data = none
    ∧ processEntry true
        ⟨"(FFFF)", some "N", some "A", some "US", none, none⟩ = .skipped :=
  ⟨rfl,
    (tag_pattern_exclusive_and_rendered.2.2.2.2.1 "(50xx,0200)".data
      20480 512 rfl).1,
    rfl, rfl,
    tag_pattern_exclusive_and_rendered.2.2.2.2.2.2 true
      ⟨"(FFFF)", some "N", some "A", some "US", none, none⟩ "A" rfl
      (by simp) rfl⟩

/-! ## The data artifact (C9) -/

/-- A member of an insertion result is the inserted pair or an original
member. -/
theorem mem_btreeInsert (l : List (String × Entry)) (kv kv' : String × Entry)
    (h : kv' ∈ btreeInsert l kv) : kv' = kv ∨ kv' ∈ l := by
  induction l with
  | nil => simpa [btreeInsert] using h
  | cons hd rest ih =>
    rcases hd with ⟨k', v'⟩
    rcases kv with ⟨k, v⟩
    by_cases h1 : k < k'
    · simp only [btreeInsert, if_pos h1, List.mem_cons] at h
      rcases h with h | h | h
      · exact Or.inl h
      · exact Or.inr (by simp [h])
      · exact Or.inr (by simp [h])
    · by_cases h2 : k = k'
      · simp only [btreeInsert, if_neg h1, if_pos h2, List.mem_cons] at h
        rcases h with h | h
        · exact Or.inl h
        · exact Or.inr (by simp [h])
      · simp only [btreeInsert, if_neg h1, if_neg h2, List.mem_cons] at h
        rcases h with h | h
        · exact Or.inr (by simp [h])
        · rcases ih h with h' | h'
          · exact Or.inl h'
          · exact Or.inr (by simp [h'])

/-- The inserted key is a key of the insertion result. -/
theorem key_mem_btreeInsert (l : List (String × Entry)) (kv : String × Entry) :
    kv.1 ∈ (btreeInsert l kv).map Prod.fst := by
  rcases kv with ⟨k, v⟩
  induction l with
  | nil => simp [btreeInsert]
  | cons hd rest ih =>
    rcases hd with ⟨k', v'⟩
    unfold btreeInsert
    by_cases h1 : k < k'
    · rw [if_pos h1]; simp
    · rw [if_neg h1]
      by_cases h2 : k = k'
      · rw [if_pos h2]; simp
      · rw [if_neg h2]
        simpa using Or.inr ih

/-- Existing keys survive an insertion (an equal key is replaced by the
same key). -/
theorem keys_subset_btreeInsert (l : List (String × Entry))
    (kv : String × Entry) (x : String) (hx : x ∈ l.map Prod.fst) :
    x ∈ (btreeInsert l kv).map Prod.fst := by
  rcases kv with ⟨k, v⟩
  induction l with
  | nil => simp at hx
  | cons hd rest ih =>
    rcases hd with ⟨k', v'⟩
    simp only [List.map_cons, List.mem_cons] at hx
    unfold btreeInsert
    by_cases h1 : k < k'
    · rw [if_pos h1]
      rcases hx with rfl | hx
      · simp
      · simp [hx]
    · rw [if_neg h1]
      by_cases h2 : k = k'
      · rw [if_pos h2]
        rcases hx with rfl | hx
        · simp [h2]
        · simp [hx]
      · rw [if_neg h2]
        rcases hx with rfl | hx
        · simp
        · simpa using Or.inr (ih hx)

/-- A key of an insertion result is the inserted key or an original key. -/
theorem mem_keys_btreeInsert (l : List (String × Entry))
    (kv : String × Entry) (x : String)
    (hx : x ∈ (btreeInsert l kv).map Prod.fst) :
    x = kv.1 ∨ x ∈ l.map Prod.fst := by
  rcases List.mem_map.mp hx with ⟨kv', hkv', rfl⟩
  rcases mem_btreeInsert l kv kv' hkv' with h | h
  · exact Or.inl (by rw [h])
  · exact Or.inr (List.mem_map_of_mem _ h)

/-- Insertion preserves strictly-ascending key order. -/
theorem btreeInsert_pairwise (l : List (String × Entry))
    (kv : String × Entry)
    (h : (l.map Prod.fst).Pairwise (· < ·)) :
    ((btreeInsert l kv).map Prod.fst).Pairwise (· < ·) := by
  induction l with
  | nil => simp [btreeInsert]
  | cons hd rest ih =>
    rcases hd with ⟨k', v'⟩
    simp only [List.map_cons, List.pairwise_cons] at h
    obtain ⟨hlt, hrest⟩ := h
    by_cases h1 : kv.1 < k'
    · simp only [btreeInsert, if_pos h1, List.map_cons, List.pairwise_cons]
      refine ⟨?_, hlt, hrest⟩
      intro x hx
      simp only [List.mem_cons] at hx
      rcases hx with rfl | hx
      · exact h1
      · exact lt_trans h1 (hlt x hx)
    · by_cases h2 : kv.1 = k'
      · simp only [btreeInsert, if_neg h1, if_pos h2, List.map_cons,
          List.pairwise_cons]
        exact ⟨fun x hx => h2 ▸ hlt x hx, hrest⟩
      · have h3 : k' < kv.1 := by
          rcases lt_trichotomy kv.1 k' with hc | hc | hc
          · exact absurd hc h1
          · exact absurd hc h2
          · exact hc
        simp only [btreeInsert, if_neg h1, if_neg h2, List.map_cons,
          List.pairwise_cons]
        refine ⟨?_, ih hrest⟩
        intro x hx
        rcases mem_keys_btreeInsert rest kv x hx with rfl | hx'
        · exact h3
        · exact hlt x hx'

/-- Key order is preserved by the whole fold of `to_json_file`. -/
theorem foldl_btree_pairwise (es : List Entry) :
    ∀ acc : List (String × Entry),
      (acc.map Prod.fst).Pairwise (· < ·) →
      (((es.foldl (fun acc e => btreeInsert acc (e.tag, e)) acc)).map
        Prod.fst).Pairwise (· < ·) := by
  induction es with
  | nil => intro acc hacc; simpa using hacc
  | cons e rest ih =>
    intro acc hacc
    exact ih _ (btreeInsert_pairwise acc (e.tag, e) hacc)

/-- Every member of the fold comes from the accumulator or from an input
entry, keyed by its tag. -/
theorem mem_foldl_btree (es : List Entry) :
    ∀ (acc : List (String × Entry)) (kv : String × Entry),
      kv ∈ es.foldl (fun acc e => btreeInsert acc (e.tag, e)) acc →
      kv ∈ acc ∨ ∃ e ∈ es, kv = (e.tag, e) := by
  induction es with
  | nil => intro acc kv h; exact Or.inl (by simpa using h)
  | cons e rest ih =>
    intro acc kv h
    rcases ih _ kv h with h' | h'
    · rcases mem_btreeInsert acc (e.tag, e) kv h' with h'' | h''
      · exact Or.inr ⟨e, by simp, h''⟩
      · exact Or.inl h''
    · rcases h' with ⟨e', he', heq⟩
      exact Or.inr ⟨e', by simp [he'], heq⟩

/-- Keys present in the accumulator remain present after the fold. -/
theorem foldl_btree_keys_mono (es : List Entry) :
    ∀ (acc : List (String × Entry)) (x : String),
      x ∈ acc.map Prod.fst →
      x ∈ ((es.foldl (fun acc e => btreeInsert acc (e.tag, e)) acc)).map
        Prod.fst := by
  induction es with
  | nil => intro acc x hx; simpa using hx
  | cons e rest ih =>
    intro acc x hx
    exact ih _ x (keys_subset_btreeInsert acc (e.tag, e) x hx)

/-- Every input entry's tag is a key of the fold result. -/
theorem tag_mem_foldl_btree (es : List Entry) :
    ∀ (acc : List (String × Entry)) (e : Entry), e ∈ es →
      e.tag ∈ ((es.foldl (fun acc e => btreeInsert acc (e.tag, e)) acc)).map
        Prod.fst := by
  induction es with
  | nil => intro acc e he; simp at he
  | cons e0 rest ih =>
    intro acc e he
    rcases List.mem_cons.mp he with rfl | he'
    · exact foldl_btree_keys_mono rest _ e.tag
        (key_mem_btreeInsert acc (e.tag, e))
    · exact ih _ e he'

/-- C9: the data artifact written by `to_json_file` is a single object whose
keys are the entry tag strings in strictly ascending lexicographic order,
whose values are the corresponding entry records keyed by their own tag, and
whose serialized records omit the notes (`obs`) key exactly when the field
is absent. -/
theorem json_artifact_sorted_keys (entries : List Entry) :
    ((to_json_file entries).map Prod.fst).Pairwise (· < ·)
    ∧ (∀ kv ∈ to_json_file entries, kv.2.tag = kv.1 ∧ kv.2 ∈ entries)
    ∧ (∀ e ∈ entries, e.tag ∈ (to_json_file entries).map Prod.fst)
    ∧ (∀ e : Entry,
        "obs" ∈ (serializeEntry e).map Prod.fst ↔ e.obs ≠ none) := by
  refine ⟨?_, ?_, ?_, ?_⟩
  · exact foldl_btree_pairwise entries [] (by simp)
  · intro kv hkv
    rcases mem_foldl_btree entries [] kv hkv with h | ⟨e, he, rfl⟩
    · simp at h
    · exact ⟨rfl, he⟩
  · intro e he
    exact tag_mem_foldl_btree entries [] e he
  · intro e
    cases hobs : e.obs <;> simp [serializeEntry, hobs]

/-- Witness for C9 at a concrete two-entry input given in reverse key
order. -/
theorem json_artifact_sorted_keys_witness :
    ((to_json_file
      [⟨"(0010,0010)", some "PatientName", some "PatientName", some "PN",
          some "1", none⟩,
        ⟨"(0008,0100)", some "CodeValue", some "CodeValue", some "SH",
          some "1", none⟩]).map Prod.fst).Pairwise (· < ·)
    ∧ (⟨"(0010,0010)", some "PatientName", some "PatientName", some "PN",
        some "1", none⟩ : Entry) ∈
        ([⟨"(0010,0010)", some "PatientName", some "PatientName", some "PN",
          some "1", none⟩,
          ⟨"(0008,0100)", some "CodeValue", some "CodeValue", some "SH",
            some "1", none⟩] : List Entry)
    ∧ "(0010,0010)" ∈ (to_json_file
      [⟨"(0010,0010)", some "PatientName", some "PatientName", some "PN",
          some "1", none⟩,
        ⟨"(0008,0100)", some "CodeValue", some "CodeValue", some "SH",
          some "1", none⟩]).map Prod.fst :=
  ⟨(json_artifact_sorted_keys _).1, by simp,
    (json_artifact_sorted_keys _).2.2.1
      ⟨"(0010,0010)", some "PatientName", some "PatientName", some "PN",
        some "1", none⟩ (by simp)⟩

end DicomRs
